import Mathlib

/-!
Shallow embedding of the goutte LRU+TTL cache (cache.go, heap.go) and of the
parts of Go's container/heap package that the cache uses.

Modelling conventions:
* `time.Time` is a natural number; the Go zero time is `0` ("no expiration").
* `time.Duration` (the `ttl` argument) is an `Int`.
* Go's built-in map is an association list with unique keys (`mapLookup`,
  `mapInsert`, `mapErase`); `delete` on a map removes the key's binding.
* Pointers to `list.Element`/`entry` pairs and to `expEntry` records are
  modelled as arena indices (`Nat`) into total functions `elems`/`recs`,
  with `nextElem`/`nextRec` as allocation counters.
* `container/list` is modelled by the list of element ids in front-to-back
  order; `container/heap` is embedded operation by operation (`up`, `down`,
  `Push`, `Pop`, `Fix`), with an explicit fuel bound on the sift loops that
  strictly exceeds the number of iterations the Go loops can make.
* A Go `panic` in `NewCache`/`SetCapacity` is an `Except.error`.
* Each operation that reads `time.Now()` takes that observation as `now`.
-/

set_option linter.unusedSectionVars false
set_option linter.unusedVariables false

namespace Goutte

/-! ## Go map model -/

variable {K V : Type} [DecidableEq K] [Inhabited K] [Inhabited V]

/-- Lookup in a Go map modelled as an association list. -/
def mapLookup (k : K) : List (K × Nat) → Option Nat
  | [] => none
  | p :: rest => if p.1 = k then some p.2 else mapLookup k rest

/-- Assignment `m[k] = e` in a Go map: replace the binding or append a new one. -/
def mapInsert (k : K) (e : Nat) : List (K × Nat) → List (K × Nat)
  | [] => [(k, e)]
  | p :: rest => if p.1 = k then (k, e) :: rest else p :: mapInsert k e rest

/-- Deletion `delete(m, k)` in a Go map: remove the binding of `k`. -/
def mapErase (k : K) : List (K × Nat) → List (K × Nat)
  | [] => []
  | p :: rest => if p.1 = k then mapErase k rest else p :: mapErase k rest

/-! ## Expiration heap (heap.go and container/heap) -/

/-- One scheduling record in the expiration heap (`expEntry` in heap.go). -/
structure ExpRec (K : Type) where
  key : K
  expiration : Nat
  index : Int
  canceled : Bool
deriving Repr

/-- Arena of `expEntry` records addressed by pointer id. -/
abbrev RecArena (K : Type) := Nat → ExpRec K

/-- Array read `h[i]` on the heap slice of record pointers. -/
def hGet (arr : List Nat) (i : Nat) : Nat := arr.getD i 0

/-- Pointwise arena write that changes only the `index` field of record `id`. -/
def setIndex (recs : RecArena K) (id : Nat) (v : Int) : RecArena K :=
  fun n => if n = id then { recs n with index := v } else recs n

/-- The heap's `Less`: `h[i].expiration.Before(h[j].expiration)`. -/
def hLess (recs : RecArena K) (arr : List Nat) (i j : Nat) : Bool :=
  decide ((recs (hGet arr i)).expiration < (recs (hGet arr j)).expiration)

/-- The heap's `Swap`: exchange slots `i` and `j` and store the new positions
in the two records' `index` fields. -/
def hSwap (recs : RecArena K) (arr : List Nat) (i j : Nat) :
    RecArena K × List Nat :=
  let ri := hGet arr i
  let rj := hGet arr j
  let arr' := (arr.set i rj).set j ri
  (setIndex (setIndex recs rj (i : Int)) ri (j : Int), arr')

/-- container/heap `up`. The Go loop sets `j := (j-1)/2` each iteration, so it
makes at most `j` steps; the fuel passed by callers always exceeds that. -/
def heapUp (recs : RecArena K) (arr : List Nat) (j : Nat) :
    Nat → RecArena K × List Nat
  | 0 => (recs, arr)
  | fuel + 1 =>
    let i := (j - 1) / 2
    if i = j ∨ hLess recs arr j i = false then (recs, arr)
    else
      let p := hSwap recs arr i j
      heapUp p.1 p.2 i fuel

/-- container/heap `down` on the prefix of length `n`; returns the final
position of the sifted element (Go returns `i > i0`). The Go loop sets
`i := j ≥ 2*i+1 > i` each iteration, so it makes at most `n` steps. -/
def heapDown (recs : RecArena K) (arr : List Nat) (i n : Nat) :
    Nat → RecArena K × List Nat × Nat
  | 0 => (recs, arr, i)
  | fuel + 1 =>
    let j1 := 2 * i + 1
    if n ≤ j1 then (recs, arr, i)
    else
      let j := if j1 + 1 < n ∧ hLess recs arr (j1 + 1) j1 = true then j1 + 1 else j1
      if hLess recs arr j i = false then (recs, arr, i)
      else
        let p := hSwap recs arr i j
        heapDown p.1 p.2 j n fuel

/-- container/heap `Push`: the interface `Push` appends the record with
`index = len`, then `up` sifts it from the last slot. -/
def heapPushGo (recs : RecArena K) (arr : List Nat) (id : Nat) :
    RecArena K × List Nat :=
  let n := arr.length
  heapUp (setIndex recs id (n : Int)) (arr ++ [id]) n (n + 1)

/-- container/heap `Pop`: swap the root with the last slot, `down` the prefix,
then the interface `Pop` removes the last slot and sets its `index` to `-1`. -/
def heapPopGo (recs : RecArena K) (arr : List Nat) :
    RecArena K × List Nat × Option Nat :=
  match arr with
  | [] => (recs, arr, none)
  | _ :: _ =>
    let n := arr.length - 1
    let p1 := hSwap recs arr 0 n
    let p2 := heapDown p1.1 p1.2 0 n (n + 1)
    let popped := hGet p2.2.1 n
    (setIndex p2.1 popped (-1), p2.2.1.take n, some popped)

/-- container/heap `Fix i`: `down` over the whole array; if the element did not
move down, `up` from the original position. -/
def heapFixGo (recs : RecArena K) (arr : List Nat) (i : Nat) :
    RecArena K × List Nat :=
  let p := heapDown recs arr i arr.length (arr.length + 1)
  if p.2.2 ≤ i then heapUp p.1 p.2.1 i (p.2.1.length + 1) else (p.1, p.2.1)

/-! ## Cache state (cache.go) -/

/-- One cached item (`entry` in cache.go). `expiration = 0` is the Go zero
time, meaning "never expires"; `exp` is the pointer to the attached
`expEntry`, or `none`. -/
structure Entry (K V : Type) where
  key : K
  value : V
  expiration : Nat
  exp : Option Nat
deriving Repr

/-- The cache (`Cache` struct in cache.go). `ll` lists element ids front
(most recently used) to back; `cache` is the Go map from key to element;
`expHeap` is the heap slice of record ids; `pendingSignal` models the
capacity-one `updateCh` channel holding a signal. -/
structure Cache (K V : Type) where
  capacity : Int
  ll : List Nat
  elems : Nat → Entry K V
  nextElem : Nat
  cache : List (K × Nat)
  expHeap : List Nat
  recs : RecArena K
  nextRec : Nat
  pendingSignal : Bool

/-- Errors with which the Go code panics. -/
inductive GoPanic where
  | invalidCapacity
deriving Repr, DecidableEq

/-- Arena write for entries. -/
def fupd {α : Type} (f : Nat → α) (i : Nat) (v : α) : Nat → α :=
  fun j => if j = i then v else f j

/-- `NewCache(capacity)`: panics (here: errors) when `capacity <= 0`,
otherwise returns the empty cache. The sweeper goroutine it starts is
modelled by the sweeper steps of the `Step` relation. -/
def NewCache (K V : Type) [Inhabited K] [Inhabited V] (capacity : Int) :
    Except GoPanic (Cache K V) :=
  if capacity ≤ 0 then .error .invalidCapacity
  else .ok
    { capacity := capacity
      ll := []
      elems := fun _ => ⟨default, default, 0, none⟩
      nextElem := 0
      cache := []
      expHeap := []
      recs := fun _ => ⟨default, 0, 0, false⟩
      nextRec := 0
      pendingSignal := false }

/-- `Get(key)`: on a hit with a set, strictly past expiration the entry is
removed (lazy expiration) and `(zero, false)` is returned; on a live hit the
element moves to the front and `(value, true)` is returned; on a miss
`(zero, false)`. -/
def Get (k : K) (now : Nat) (s : Cache K V) : V × Bool × Cache K V :=
  match mapLookup k s.cache with
  | some e =>
    let ent := s.elems e
    if ent.expiration ≠ 0 ∧ ent.expiration < now then
      (default, false,
        { s with ll := s.ll.erase e, cache := mapErase k s.cache })
    else
      (ent.value, true, { s with ll := e :: s.ll.erase e })
  | none => (default, false, s)

/-- `signalExpirationUpdate`: non-blocking send on the capacity-one channel. -/
def signalExpirationUpdate (s : Cache K V) : Cache K V :=
  { s with pendingSignal := true }

/-- `removeOldestLocked`: evict the back of the list, cancel its attached
expiration record (flag only), and delete its key from the map. -/
def removeOldestLocked (s : Cache K V) : Cache K V :=
  match s.ll.getLast? with
  | none => s
  | some e =>
    let ent := s.elems e
    let recs' :=
      match ent.exp with
      | some r => fun n => if n = r then { s.recs n with canceled := true } else s.recs n
      | none => s.recs
    { s with
      recs := recs'
      ll := s.ll.dropLast
      cache := mapErase ent.key s.cache }

/-- `SetWithTTL(key, value, ttl)`; `now` is the call's `time.Now()`. -/
def SetWithTTL (k : K) (v : V) (ttl : Int) (now : Nat) (s : Cache K V) :
    Cache K V :=
  let expiration : Nat := if 0 < ttl then now + ttl.toNat else 0
  match mapLookup k s.cache with
  | some e =>
    -- Update existing key.
    let ent := s.elems e
    let s1 : Cache K V :=
      { s with
        elems := fupd s.elems e { ent with value := v, expiration := expiration }
        ll := e :: s.ll.erase e }
    if 0 < ttl then
      match ent.exp with
      | some r =>
        -- Update existing expiration entry, then heap.Fix at its index.
        let recs1 : RecArena K :=
          fun n => if n = r then { s1.recs n with expiration := expiration } else s1.recs n
        let p := heapFixGo recs1 s1.expHeap (recs1 r).index.toNat
        signalExpirationUpdate { s1 with recs := p.1, expHeap := p.2 }
      | none =>
        -- Create a new expiration entry and attach it.
        let rid := s1.nextRec
        let recs1 := fupd s1.recs rid ⟨k, expiration, 0, false⟩
        let p := heapPushGo recs1 s1.expHeap rid
        signalExpirationUpdate
          { s1 with
            elems := fupd s1.elems e { ent with value := v, expiration := expiration, exp := some rid }
            recs := p.1
            expHeap := p.2
            nextRec := rid + 1 }
    else
      -- TTL is 0: cancel any existing expiration.
      match ent.exp with
      | some r =>
        { s1 with
          recs := fun n => if n = r then { s1.recs n with canceled := true } else s1.recs n
          elems := fupd s1.elems e { ent with value := v, expiration := expiration, exp := none } }
      | none => s1
  | none =>
    -- Add new entry.
    let eid := s.nextElem
    let s1 : Cache K V :=
      { s with
        elems := fupd s.elems eid ⟨k, v, expiration, none⟩
        nextElem := eid + 1
        ll := eid :: s.ll
        cache := mapInsert k eid s.cache }
    let s2 : Cache K V :=
      if 0 < ttl then
        let rid := s1.nextRec
        let recs1 := fupd s1.recs rid ⟨k, expiration, 0, false⟩
        let p := heapPushGo recs1 s1.expHeap rid
        signalExpirationUpdate
          { s1 with
            elems := fupd s1.elems eid ⟨k, v, expiration, some rid⟩
            recs := p.1
            expHeap := p.2
            nextRec := rid + 1 }
      else s1
    -- Evict the least recently used item if over capacity.
    if s2.capacity < (s2.ll.length : Int) then removeOldestLocked s2 else s2

/-- `Set(key, value)` is `SetWithTTL(key, value, 0)`. -/
def Set (k : K) (v : V) (now : Nat) (s : Cache K V) : Cache K V :=
  SetWithTTL k v 0 now s

/-- `Delete(key)`: remove the entry if present, canceling its record. -/
def Delete (k : K) (s : Cache K V) : Cache K V :=
  match mapLookup k s.cache with
  | none => s
  | some e =>
    let ent := s.elems e
    let recs' :=
      match ent.exp with
      | some r => fun n => if n = r then { s.recs n with canceled := true } else s.recs n
      | none => s.recs
    { s with
      recs := recs'
      ll := s.ll.erase e
      cache := mapErase k s.cache }

/-- `Dump()`: reset the list, the map and the heap (`heap.Init` on the empty
slice is a no-op). -/
def Dump (s : Cache K V) : Cache K V :=
  { s with ll := [], cache := [], expHeap := [] }

/-- Eviction loop of `SetCapacity`: `for c.ll.Len() > c.capacity`. Each
iteration on a non-empty list shortens it by one, so fuel `s.ll.length`
makes the bounded loop agree with the unbounded Go loop. -/
def evictLoop : Nat → Cache K V → Cache K V
  | 0, s => s
  | fuel + 1, s =>
    if s.capacity < (s.ll.length : Int) then evictLoop fuel (removeOldestLocked s)
    else s

/-- `SetCapacity(newCapacity)`: panics (here: errors) when
`newCapacity <= 0`; otherwise stores the capacity and evicts from the back
until the list fits. -/
def SetCapacity (n : Int) (s : Cache K V) : Except GoPanic (Cache K V) :=
  if n ≤ 0 then .error .invalidCapacity
  else .ok (evictLoop s.ll.length { s with capacity := n })

/-- Wait-computation step of `expirationProcessor`: when the heap root is a
canceled record it is popped at once and the loop restarts. Other outcomes of
that phase only choose a sleep duration and do not mutate the cache. -/
def sweepPhase1 (s : Cache K V) : Cache K V :=
  if s.expHeap.length = 0 then s
  else if (s.recs (hGet s.expHeap 0)).canceled then
    let p := heapPopGo s.recs s.expHeap
    { s with recs := p.1, expHeap := p.2.1 }
  else s

/-- One iteration of the removal loop of `expirationProcessor`: `none` when
the loop exits (empty heap or future root), otherwise the state after popping
the root and possibly removing the root's entry. -/
def sweepStepOnce (now : Nat) (s : Cache K V) : Option (Cache K V) :=
  if s.expHeap.length = 0 then none
  else
    let rid := hGet s.expHeap 0
    let next := s.recs rid
    if next.canceled then
      -- Skip canceled entries.
      let p := heapPopGo s.recs s.expHeap
      some { s with recs := p.1, expHeap := p.2.1 }
    else if now < next.expiration then none
    else
      let p := heapPopGo s.recs s.expHeap
      let s1 : Cache K V := { s with recs := p.1, expHeap := p.2.1 }
      match mapLookup next.key s1.cache with
      | some e =>
        let ent := s1.elems e
        -- Only remove if the stored expiration is expired.
        if ent.expiration ≠ 0 ∧ ent.expiration ≤ now then
          some { s1 with ll := s1.ll.erase e, cache := mapErase next.key s1.cache }
        else some s1
      | none => some s1

/-- Removal loop of `expirationProcessor`. Every continuing iteration pops
one record, so fuel `s.expHeap.length` covers the unbounded Go loop. -/
def sweepLoop (now : Nat) : Nat → Cache K V → Cache K V
  | 0, s => s
  | fuel + 1, s =>
    match sweepStepOnce now s with
    | none => s
    | some s' => sweepLoop now fuel s'

/-- One full sweep pass ("Remove all expired entries") at time `now`. -/
def sweep (now : Nat) (s : Cache K V) : Cache K V :=
  sweepLoop now s.expHeap.length s

/-- Number of live entries, `c.ll.Len()`. -/
def size (s : Cache K V) : Nat := s.ll.length

/-- Intermediate state of the insert path of `SetWithTTL` (new key, positive
ttl) just before the capacity check. -/
def mkInsertPos (k : K) (v : V) (ttl : Int) (now : Nat) (s : Cache K V) :
    Cache K V :=
  { s with
    elems := fupd (fupd s.elems s.nextElem ⟨k, v, now + ttl.toNat, none⟩)
      s.nextElem ⟨k, v, now + ttl.toNat, some s.nextRec⟩
    nextElem := s.nextElem + 1
    ll := s.nextElem :: s.ll
    cache := mapInsert k s.nextElem s.cache
    recs := (heapPushGo (fupd s.recs s.nextRec ⟨k, now + ttl.toNat, 0, false⟩)
      s.expHeap s.nextRec).1
    expHeap := (heapPushGo (fupd s.recs s.nextRec ⟨k, now + ttl.toNat, 0, false⟩)
      s.expHeap s.nextRec).2
    nextRec := s.nextRec + 1
    pendingSignal := true }

/-- Intermediate state of the insert path of `SetWithTTL` (new key, ttl at
most zero) just before the capacity check. -/
def mkInsertNonpos (k : K) (v : V) (s : Cache K V) : Cache K V :=
  { s with
    elems := fupd s.elems s.nextElem ⟨k, v, 0, none⟩
    nextElem := s.nextElem + 1
    ll := s.nextElem :: s.ll
    cache := mapInsert k s.nextElem s.cache }

/-! ## Step relation: one completed public call or sweeper action -/

/-- One completed mutation of the cache: a public call, or one of the
sweeper's lock-protected actions (popping a canceled root while computing the
wait time, a whole removal pass, consuming the update signal). -/
inductive Step [DecidableEq K] [Inhabited K] [Inhabited V] :
    Cache K V → Cache K V → Prop where
  | get (s : Cache K V) (k : K) (now : Nat) : Step s (Get k now s).2.2
  | setWithTTL (s : Cache K V) (k : K) (v : V) (ttl : Int) (now : Nat) :
      Step s (SetWithTTL k v ttl now s)
  | del (s : Cache K V) (k : K) : Step s (Delete k s)
  | dump (s : Cache K V) : Step s (Dump s)
  | setCapacity (s s' : Cache K V) (n : Int) (h : SetCapacity n s = .ok s') :
      Step s s'
  | phase1 (s : Cache K V) : Step s (sweepPhase1 s)
  | sweepRun (s : Cache K V) (now : Nat) : Step s (sweep now s)
  | consumeSignal (s : Cache K V) : Step s { s with pendingSignal := false }

/-- States reachable from a successfully constructed cache. -/
inductive Reachable [DecidableEq K] [Inhabited K] [Inhabited V] :
    Cache K V → Prop where
  | init (cap : Int) (s : Cache K V) (h : NewCache K V cap = .ok s) : Reachable s
  | step {s s' : Cache K V} (hr : Reachable s) (hs : Step s s') : Reachable s'

/-! ## Auxiliary predicates used by the verification -/

/-- Two records agree on every field except the heap bookkeeping `index`. -/
def recSame (a b : ExpRec K) : Prop :=
  a.key = b.key ∧ a.expiration = b.expiration ∧ a.canceled = b.canceled

/-- Every heap slot's record stores its own position in its `index` field —
the bookkeeping contract of container/heap that `Fix` relies on. -/
def IndexOK (recs : RecArena K) (arr : List Nat) : Prop :=
  ∀ i, i < arr.length → (recs (hGet arr i)).index = (i : Int)

/-- Invariant of the claim C4 as stated by the spec: at most one non-canceled
expiration record exists per key in the heap. -/
def atMostOnePerKey (s : Cache K V) : Prop :=
  ∀ r1 ∈ s.expHeap, ∀ r2 ∈ s.expHeap,
    (s.recs r1).canceled = false → (s.recs r2).canceled = false →
    (s.recs r1).key = (s.recs r2).key → r1 = r2

/-- Structural consistency of the three containers, preserved by every step
except that the size bound is restored only at the end of a call. -/
structure InvCore (s : Cache K V) : Prop where
  keysNodup : (s.cache.map Prod.fst).Nodup
  llPerm : (s.cache.map Prod.snd).Perm s.ll
  llNodup : s.ll.Nodup
  llBound : ∀ e ∈ s.ll, e < s.nextElem
  keyMatch : ∀ p ∈ s.cache, (s.elems p.2).key = p.1
  heapBound : ∀ r ∈ s.expHeap, r < s.nextRec
  heapNodup : s.expHeap.Nodup
  heapIndexOK : IndexOK s.recs s.expHeap
  attached : ∀ p ∈ s.cache, ∀ r, (s.elems p.2).exp = some r →
    r ∈ s.expHeap ∧ (s.recs r).key = p.1 ∧ (s.recs r).canceled = false ∧
    (s.recs r).expiration = (s.elems p.2).expiration ∧ (s.elems p.2).expiration ≠ 0

/-- Full invariant holding after every completed mutation. -/
structure Inv (s : Cache K V) : Prop where
  core : InvCore s
  sizeCap : (s.ll.length : Int) ≤ s.capacity
  capPos : 0 < s.capacity

/-! ## Concrete execution traces used by counterexamples and witnesses -/

/-- The empty capacity-2 cache over `Nat` keys and values,
`NewCache Nat Nat 2`. -/
def ex0 : Cache Nat Nat :=
  { capacity := 2
    ll := []
    elems := fun _ => ⟨default, default, 0, none⟩
    nextElem := 0
    cache := []
    expHeap := []
    recs := fun _ => ⟨default, 0, 0, false⟩
    nextRec := 0
    pendingSignal := false }

/-- C3 trace: `Set a`, `Set b`, `Set c` on the capacity-2 cache
(keys 1, 2, 3), which already evicts key 1. -/
def exC3c : Cache Nat Nat := Set 3 30 0 (Set 2 20 0 (Set 1 10 0 ex0))

/-- C3 trace continued: `Get a` (a miss) then `Set d` (key 4). -/
def exC3d : Cache Nat Nat := Set 4 40 0 (Get 1 0 exC3c).2.2

/-- TTL trace: `SetWithTTL 1 _ 5` at time 0 schedules record 0 at time 5. -/
def exT1 : Cache Nat Nat := SetWithTTL 1 10 5 0 ex0

/-- TTL trace: `Get 1` at time 6 removes the expired entry lazily but leaves
record 0 non-canceled in the heap. -/
def exT2 : Cache Nat Nat := (Get 1 6 exT1).2.2

/-- TTL trace: re-inserting key 1 with ttl 2 at time 6 pushes record 1
(expiration 8) while record 0 (expiration 5) is still live in the heap. -/
def exT3 : Cache Nat Nat := SetWithTTL 1 20 2 6 exT2

/-! ## Lemmas about the Go map model -/

theorem mapLookup_eq_none (k : K) :
    ∀ (m : List (K × Nat)), mapLookup k m = none ↔ k ∉ m.map Prod.fst
  | [] => by simp [mapLookup]
  | p :: rest => by
    rw [mapLookup]
    by_cases h : p.1 = k
    · simp [h]
    · rw [if_neg h, mapLookup_eq_none k rest]
      constructor
      · intro hn
        simp only [List.map_cons, List.mem_cons]
        rintro (h1 | h2)
        · exact h h1.symm
        · exact hn h2
      · intro hn h2
        exact hn (by simp [h2])

theorem mapLookup_mem {k : K} {e : Nat} :
    ∀ {m : List (K × Nat)}, mapLookup k m = some e → (k, e) ∈ m
  | [], h => by simp [mapLookup] at h
  | p :: rest, h => by
    by_cases hp : p.1 = k
    · rw [mapLookup, if_pos hp] at h
      have h2 : p.2 = e := by simpa using h
      have hpk : (k, e) = p := by
        rw [← hp, ← h2]
      rw [hpk]
      exact List.mem_cons_self p rest
    · rw [mapLookup, if_neg hp] at h
      exact List.mem_cons_of_mem _ (mapLookup_mem h)

theorem mapErase_of_not_mem {k : K} :
    ∀ {m : List (K × Nat)}, k ∉ m.map Prod.fst → mapErase k m = m
  | [], _ => rfl
  | p :: rest, h => by
    have h1 : p.1 ≠ k := by
      intro he
      exact h (by simp [he])
    have h2 : k ∉ rest.map Prod.fst := by
      intro he
      exact h (by simp [he])
    simp [mapErase, h1, mapErase_of_not_mem h2]

theorem mem_mapErase {k : K} {p : K × Nat} :
    ∀ {m : List (K × Nat)}, p ∈ mapErase k m ↔ p ∈ m ∧ p.1 ≠ k
  | [] => by simp [mapErase]
  | q :: rest => by
    by_cases hq : q.1 = k
    · rw [mapErase, if_pos hq]
      rw [mem_mapErase (m := rest)]
      constructor
      · rintro ⟨h1, h2⟩
        exact ⟨List.mem_cons_of_mem _ h1, h2⟩
      · rintro ⟨h1, h2⟩
        rcases List.mem_cons.mp h1 with h1 | h1
        · exact absurd (h1 ▸ hq) h2
        · exact ⟨h1, h2⟩
    · rw [mapErase, if_neg hq]
      constructor
      · intro h
        rcases List.mem_cons.mp h with h | h
        · exact ⟨by rw [h]; exact List.mem_cons_self q rest, by rw [h]; exact hq⟩
        · rcases (mem_mapErase (m := rest)).mp h with ⟨h1, h2⟩
          exact ⟨List.mem_cons_of_mem _ h1, h2⟩
      · rintro ⟨h1, h2⟩
        rcases List.mem_cons.mp h1 with h1 | h1
        · rw [h1]
          exact List.mem_cons_self _ _
        · exact List.mem_cons_of_mem _ (mem_mapErase.mpr ⟨h1, h2⟩)

theorem mapErase_sublist (k : K) :
    ∀ (m : List (K × Nat)), (mapErase k m).Sublist m
  | [] => List.Sublist.refl _
  | p :: rest => by
    by_cases hp : p.1 = k
    · rw [mapErase, if_pos hp]
      exact (mapErase_sublist k rest).cons p
    · rw [mapErase, if_neg hp]
      exact (mapErase_sublist k rest).cons₂ p

theorem mapLookup_mapErase_self (k : K) :
    ∀ (m : List (K × Nat)), mapLookup k (mapErase k m) = none := by
  intro m
  rw [mapLookup_eq_none]
  intro h
  rcases List.mem_map.mp h with ⟨p, hp, he⟩
  exact (mem_mapErase.mp hp).2 he

theorem mapLookup_mapErase_ne {k k' : K} (h : k' ≠ k) :
    ∀ (m : List (K × Nat)), mapLookup k' (mapErase k m) = mapLookup k' m
  | [] => rfl
  | p :: rest => by
    by_cases hp : p.1 = k
    · rw [mapErase, if_pos hp, mapLookup_mapErase_ne h rest, mapLookup,
        if_neg (by rw [hp]; exact fun he => h he.symm)]
    · rw [mapErase, if_neg hp, mapLookup, mapLookup]
      by_cases hp' : p.1 = k'
      · rw [if_pos hp', if_pos hp']
      · rw [if_neg hp', if_neg hp', mapLookup_mapErase_ne h rest]

theorem perm_cons_mapErase {k : K} {e : Nat} :
    ∀ {m : List (K × Nat)}, (m.map Prod.fst).Nodup → mapLookup k m = some e →
      m.Perm ((k, e) :: mapErase k m)
  | [], _, h => by simp [mapLookup] at h
  | p :: rest, nd, h => by
    by_cases hp : p.1 = k
    · rw [mapLookup, if_pos hp] at h
      have hpk : p = (k, e) := by
        ext
        · exact hp
        · simpa using h
      have hnk : k ∉ rest.map Prod.fst := by
        rw [← hp]
        exact (List.nodup_cons.mp (by simpa using nd)).1
      rw [mapErase, if_pos hp, mapErase_of_not_mem hnk, hpk]
    · rw [mapLookup, if_neg hp] at h
      rw [mapErase, if_neg hp]
      have ih := perm_cons_mapErase (List.nodup_cons.mp (by simpa using nd)).2 h
      exact (ih.cons p).trans (List.Perm.swap _ _ _)

theorem mapInsert_of_lookup_none {k : K} {e : Nat} :
    ∀ {m : List (K × Nat)}, mapLookup k m = none → mapInsert k e m = m ++ [(k, e)]
  | [], _ => rfl
  | p :: rest, h => by
    rw [mapLookup] at h
    by_cases hp : p.1 = k
    · rw [if_pos hp] at h
      exact absurd h (by simp)
    · rw [if_neg hp] at h
      rw [mapInsert, if_neg hp, mapInsert_of_lookup_none h]
      simp

theorem mapLookup_of_mem {k : K} {e : Nat} :
    ∀ {m : List (K × Nat)}, (m.map Prod.fst).Nodup → (k, e) ∈ m →
      mapLookup k m = some e
  | [], _, h => by simp at h
  | p :: rest, nd, h => by
    rcases List.mem_cons.mp h with h | h
    · rw [mapLookup, if_pos (by rw [← h]), ← h]
    · have hp : p.1 ≠ k := by
        intro he
        have : k ∈ rest.map Prod.fst := List.mem_map.mpr ⟨(k, e), h, rfl⟩
        exact (List.nodup_cons.mp (by simpa using nd)).1 (he ▸ this)
      rw [mapLookup, if_neg hp]
      exact mapLookup_of_mem (List.nodup_cons.mp (by simpa using nd)).2 h

/-! ## List and array-slot helper lemmas -/

theorem getD_cons_set_perm {α : Type} (d : α) :
    ∀ (t : List α) (m : Nat) (a : α), m < t.length →
      (t.getD m d :: t.set m a).Perm (a :: t)
  | b :: t', 0, a, _ => by
    simpa using List.Perm.swap a b t'
  | b :: t', m + 1, a, h => by
    have ih := getD_cons_set_perm d t' m a (by simpa using h)
    simp only [List.getD_cons_succ, List.set_cons_succ]
    exact (List.Perm.swap b _ _).trans ((ih.cons b).trans (List.Perm.swap _ _ _))

theorem set_swap_perm {α : Type} (d : α) :
    ∀ (l : List α) (i j : Nat), i < l.length → j < l.length →
      ((l.set i (l.getD j d)).set j (l.getD i d)).Perm l
  | a :: t, 0, 0, _, _ => by simp
  | a :: t, 0, j + 1, _, hj => by
    simp only [List.getD_cons_succ, List.getD_cons_zero, List.set_cons_zero,
      List.set_cons_succ]
    exact getD_cons_set_perm d t j a (by simpa using hj)
  | a :: t, i + 1, 0, hi, _ => by
    simp only [List.getD_cons_succ, List.getD_cons_zero, List.set_cons_succ,
      List.set_cons_zero]
    exact getD_cons_set_perm d t i a (by simpa using hi)
  | a :: t, i + 1, j + 1, hi, hj => by
    simp only [List.getD_cons_succ, List.set_cons_succ]
    exact (set_swap_perm d t i j (by simpa using hi) (by simpa using hj)).cons a

theorem hGet_eq_getElem {arr : List Nat} {i : Nat} (h : i < arr.length) :
    hGet arr i = arr[i] :=
  List.getD_eq_getElem arr 0 h

theorem hGet_set_self {arr : List Nat} {i : Nat} {a : Nat} (h : i < arr.length) :
    hGet (arr.set i a) i = a := by
  rw [hGet_eq_getElem (by simpa using h)]
  exact List.getElem_set_self _

theorem hGet_set_ne {arr : List Nat} {i j a : Nat} (h : j ≠ i) :
    hGet (arr.set i a) j = hGet arr j := by
  simp [hGet, List.getD_eq_getElem?_getD, List.getElem?_set_ne (Ne.symm h)]

theorem hGet_append_length {arr : List Nat} {id : Nat} :
    hGet (arr ++ [id]) arr.length = id := by
  rw [hGet_eq_getElem (by simp)]
  simp

theorem hGet_append_lt {arr : List Nat} {id p : Nat} (h : p < arr.length) :
    hGet (arr ++ [id]) p = hGet arr p := by
  rw [hGet_eq_getElem (by simp; omega), hGet_eq_getElem h]
  exact List.getElem_append_left h

theorem hGet_take {l : List Nat} {n p : Nat} (hp : p < n) (hl : p < l.length) :
    hGet (l.take n) p = hGet l p := by
  rw [hGet_eq_getElem (by simp; omega), hGet_eq_getElem hl]
  exact List.getElem_take l

theorem hGet_mem {arr : List Nat} {i : Nat} (h : i < arr.length) :
    hGet arr i ∈ arr := by
  rw [hGet_eq_getElem h]
  exact List.getElem_mem h

theorem hGet_inj {arr : List Nat} (nd : arr.Nodup) {i j : Nat}
    (hi : i < arr.length) (hj : j < arr.length) (h : hGet arr i = hGet arr j) :
    i = j := by
  rw [hGet_eq_getElem hi, hGet_eq_getElem hj] at h
  exact (List.Nodup.getElem_inj_iff nd).mp h

theorem mem_hGet_pos {arr : List Nat} {r : Nat} (h : r ∈ arr) :
    ∃ p, p < arr.length ∧ hGet arr p = r := by
  rcases List.mem_iff_getElem.mp h with ⟨p, hp, he⟩
  exact ⟨p, hp, by rw [hGet_eq_getElem hp]; exact he⟩

/-! ## Record arena helper lemmas -/

theorem recSame_refl (a : ExpRec K) : recSame a a := ⟨rfl, rfl, rfl⟩

theorem recSame_trans {a b c : ExpRec K} (h1 : recSame a b) (h2 : recSame b c) :
    recSame a c :=
  ⟨h1.1.trans h2.1, h1.2.1.trans h2.2.1, h1.2.2.trans h2.2.2⟩

theorem setIndex_apply_ne {recs : RecArena K} {id : Nat} {v : Int} {n : Nat}
    (h : n ≠ id) : setIndex recs id v n = recs n := by
  simp [setIndex, h]

theorem setIndex_apply_self (recs : RecArena K) (id : Nat) (v : Int) :
    setIndex recs id v id = { recs id with index := v } := by
  simp [setIndex]

theorem setIndex_recSame (recs : RecArena K) (id : Nat) (v : Int) (n : Nat) :
    recSame (setIndex recs id v n) (recs n) := by
  by_cases h : n = id
  · subst h
    rw [setIndex_apply_self]
    exact ⟨rfl, rfl, rfl⟩
  · rw [setIndex_apply_ne h]
    exact recSame_refl _

theorem IndexOK_congr {f g : RecArena K} {arr : List Nat}
    (h : ∀ n, (f n).index = (g n).index) (ok : IndexOK f arr) : IndexOK g arr :=
  fun i hi => (h _).symm.trans (ok i hi)

/-! ## Heap `Swap` lemmas -/

theorem hSwap_arr (recs : RecArena K) (arr : List Nat) (i j : Nat) :
    (hSwap recs arr i j).2 = (arr.set i (hGet arr j)).set j (hGet arr i) := rfl

theorem hSwap_recs (recs : RecArena K) (arr : List Nat) (i j : Nat) :
    (hSwap recs arr i j).1 =
      setIndex (setIndex recs (hGet arr j) (i : Int)) (hGet arr i) (j : Int) := rfl

theorem hSwap_perm (recs : RecArena K) {arr : List Nat} {i j : Nat}
    (hi : i < arr.length) (hj : j < arr.length) :
    ((hSwap recs arr i j).2).Perm arr := by
  rw [hSwap_arr]
  exact set_swap_perm 0 arr i j hi hj

theorem hSwap_length (recs : RecArena K) (arr : List Nat) (i j : Nat) :
    ((hSwap recs arr i j).2).length = arr.length := by
  rw [hSwap_arr]
  simp

theorem hSwap_recSame (recs : RecArena K) (arr : List Nat) (i j : Nat) (n : Nat) :
    recSame ((hSwap recs arr i j).1 n) (recs n) := by
  rw [hSwap_recs]
  exact recSame_trans (setIndex_recSame _ _ _ n) (setIndex_recSame _ _ _ n)

theorem hSwap_suffix (recs : RecArena K) (arr : List Nat) {i j : Nat} (q : Nat)
    (hqi : q ≠ i) (hqj : q ≠ j) :
    hGet (hSwap recs arr i j).2 q = hGet arr q := by
  rw [hSwap_arr, hGet_set_ne hqj, hGet_set_ne hqi]

theorem hSwap_indexOK {recs : RecArena K} {arr : List Nat} {i j : Nat}
    (hi : i < arr.length) (hj : j < arr.length) (nd : arr.Nodup)
    (ok : IndexOK recs arr) :
    IndexOK (hSwap recs arr i j).1 (hSwap recs arr i j).2 := by
  intro p hp
  rw [hSwap_length] at hp
  rw [hSwap_recs, hSwap_arr]
  by_cases hpj : p = j
  · subst hpj
    rw [hGet_set_self (by simpa using hj), setIndex_apply_self]
  · rw [hGet_set_ne hpj]
    by_cases hpi : p = i
    · subst hpi
      rw [hGet_set_self hi]
      have hne : hGet arr p ≠ hGet arr j := fun he => hpj (hGet_inj nd hp hj he)
      rw [setIndex_apply_ne (Ne.symm hne), setIndex_apply_self]
    · rw [hGet_set_ne hpi]
      have hne1 : hGet arr p ≠ hGet arr i := fun he => hpi (hGet_inj nd hp hi he)
      have hne2 : hGet arr p ≠ hGet arr j := fun he => hpj (hGet_inj nd hp hj he)
      rw [setIndex_apply_ne hne1, setIndex_apply_ne hne2]
      exact ok p hp

/-! ## Heap sift lemmas: the sifts permute the slice and only touch `index` -/

theorem heapUp_spec :
    ∀ (fuel : Nat) (recs : RecArena K) (arr : List Nat) (j : Nat),
      j < arr.length → arr.Nodup → IndexOK recs arr →
      ((heapUp recs arr j fuel).2.Perm arr ∧
        IndexOK (heapUp recs arr j fuel).1 (heapUp recs arr j fuel).2) ∧
      ∀ n, recSame ((heapUp recs arr j fuel).1 n) (recs n)
  | 0, recs, arr, j, _, _, ok => ⟨⟨List.Perm.refl _, ok⟩, fun _ => recSame_refl _⟩
  | fuel + 1, recs, arr, j, hj, nd, ok => by
    simp only [heapUp]
    split
    next => exact ⟨⟨List.Perm.refl _, ok⟩, fun _ => recSame_refl _⟩
    next hb =>
      have hij : (j - 1) / 2 < arr.length :=
        lt_of_le_of_lt (le_trans (Nat.div_le_self _ _) (Nat.sub_le _ _)) hj
      have hperm := hSwap_perm recs hij hj
      have hnd : (hSwap recs arr ((j - 1) / 2) j).2.Nodup := hperm.nodup_iff.mpr nd
      have hok := hSwap_indexOK hij hj nd ok
      have ih := heapUp_spec fuel (hSwap recs arr ((j - 1) / 2) j).1
        (hSwap recs arr ((j - 1) / 2) j).2 ((j - 1) / 2)
        (by rw [hSwap_length]; exact hij) hnd hok
      exact ⟨⟨ih.1.1.trans hperm, ih.1.2⟩,
        fun n => recSame_trans (ih.2 n) (hSwap_recSame recs arr _ j n)⟩

theorem heapDown_spec :
    ∀ (fuel : Nat) (recs : RecArena K) (arr : List Nat) (i n : Nat),
      n ≤ arr.length → arr.Nodup → IndexOK recs arr →
      ((heapDown recs arr i n fuel).2.1.Perm arr ∧
        IndexOK (heapDown recs arr i n fuel).1 (heapDown recs arr i n fuel).2.1) ∧
      (∀ m, recSame ((heapDown recs arr i n fuel).1 m) (recs m)) ∧
      ∀ q, n ≤ q → hGet (heapDown recs arr i n fuel).2.1 q = hGet arr q
  | 0, recs, arr, i, n, _, _, ok =>
    ⟨⟨List.Perm.refl _, ok⟩, fun _ => recSame_refl _, fun _ _ => rfl⟩
  | fuel + 1, recs, arr, i, n, hn, nd, ok => by
    simp only [heapDown]
    split
    next => exact ⟨⟨List.Perm.refl _, ok⟩, fun _ => recSame_refl _, fun _ _ => rfl⟩
    next hj1 =>
      have main : ∀ j, j < n →
          ((heapDown (hSwap recs arr i j).1 (hSwap recs arr i j).2 j n fuel).2.1.Perm arr ∧
            IndexOK (heapDown (hSwap recs arr i j).1 (hSwap recs arr i j).2 j n fuel).1
              (heapDown (hSwap recs arr i j).1 (hSwap recs arr i j).2 j n fuel).2.1) ∧
          (∀ m, recSame
            ((heapDown (hSwap recs arr i j).1 (hSwap recs arr i j).2 j n fuel).1 m) (recs m)) ∧
          ∀ q, n ≤ q →
            hGet (heapDown (hSwap recs arr i j).1 (hSwap recs arr i j).2 j n fuel).2.1 q =
              hGet arr q := by
        intro j hjn
        have hin : i < n := by omega
        have hilt : i < arr.length := lt_of_lt_of_le hin hn
        have hjlt : j < arr.length := lt_of_lt_of_le hjn hn
        have hperm := hSwap_perm recs hilt hjlt
        have hnd := hperm.nodup_iff.mpr nd
        have hok := hSwap_indexOK hilt hjlt nd ok
        have ih := heapDown_spec fuel (hSwap recs arr i j).1 (hSwap recs arr i j).2 j n
          (by rw [hSwap_length]; exact hn) hnd hok
        refine ⟨⟨ih.1.1.trans hperm, ih.1.2⟩,
          fun m => recSame_trans (ih.2.1 m) (hSwap_recSame recs arr i j m), ?_⟩
        intro q hq
        rw [ih.2.2 q hq]
        exact hSwap_suffix recs arr q (by omega) (by omega)
      by_cases hc : 2 * i + 1 + 1 < n ∧ hLess recs arr (2 * i + 1 + 1) (2 * i + 1) = true
      · rw [if_pos hc]
        by_cases hless : hLess recs arr (2 * i + 1 + 1) i = false
        · rw [if_pos hless]
          exact ⟨⟨List.Perm.refl _, ok⟩, fun _ => recSame_refl _, fun _ _ => rfl⟩
        · rw [if_neg hless]
          exact main (2 * i + 1 + 1) hc.1
      · rw [if_neg hc]
        by_cases hless : hLess recs arr (2 * i + 1) i = false
        · rw [if_pos hless]
          exact ⟨⟨List.Perm.refl _, ok⟩, fun _ => recSame_refl _, fun _ _ => rfl⟩
        · rw [if_neg hless]
          exact main (2 * i + 1) (by omega)

theorem heapPushGo_spec {recs : RecArena K} {arr : List Nat} {id : Nat}
    (hid : id ∉ arr) (nd : arr.Nodup) (ok : IndexOK recs arr) :
    ((heapPushGo recs arr id).2.Perm (id :: arr) ∧
      IndexOK (heapPushGo recs arr id).1 (heapPushGo recs arr id).2) ∧
    ∀ n, recSame ((heapPushGo recs arr id).1 n) (recs n) := by
  simp only [heapPushGo]
  have nd' : (arr ++ [id]).Nodup := by
    simp [List.nodup_append, nd, hid]
  have ok' : IndexOK (setIndex recs id (arr.length : Int)) (arr ++ [id]) := by
    intro p hp
    rw [List.length_append, List.length_singleton] at hp
    by_cases hpe : p = arr.length
    · subst hpe
      rw [hGet_append_length, setIndex_apply_self]
    · have hplt : p < arr.length := by omega
      rw [hGet_append_lt hplt,
        setIndex_apply_ne (fun he => hid (by rw [← he]; exact hGet_mem hplt))]
      exact ok p hplt
  have hup := heapUp_spec (arr.length + 1) (setIndex recs id (arr.length : Int))
    (arr ++ [id]) arr.length (by simp) nd' ok'
  exact ⟨⟨hup.1.1.trans (List.perm_append_singleton id arr), hup.1.2⟩,
    fun n => recSame_trans (hup.2 n) (setIndex_recSame recs id _ n)⟩

theorem take_concat_hGet {l : List Nat} {n : Nat} (h : l.length = n + 1) :
    l.take n ++ [hGet l n] = l := by
  have hn : n < l.length := by omega
  rw [hGet_eq_getElem hn]
  conv_rhs => rw [← List.take_append_drop n l]
  congr 1
  rw [List.drop_eq_getElem_cons hn, List.drop_eq_nil_of_le (by omega)]

theorem heapPopGo_spec {recs : RecArena K} {arr : List Nat} (hne : arr ≠ [])
    (nd : arr.Nodup) (ok : IndexOK recs arr) :
    (heapPopGo recs arr).2.2 = some (hGet arr 0) ∧
    ((heapPopGo recs arr).2.1 ++ [hGet arr 0]).Perm arr ∧
    IndexOK (heapPopGo recs arr).1 (heapPopGo recs arr).2.1 ∧
    (∀ n, recSame ((heapPopGo recs arr).1 n) (recs n)) ∧
    (heapPopGo recs arr).2.1.length = arr.length - 1 := by
  rcases arr with - | ⟨a, rest⟩
  · exact absurd rfl hne
  simp only [heapPopGo]
  have h0 : 0 < (a :: rest).length := by simp
  have hnlt : (a :: rest).length - 1 < (a :: rest).length := by simp
  have hnle1 : (a :: rest).length - 1 ≤ ((hSwap recs (a :: rest) 0 ((a :: rest).length - 1)).2).length := by
    rw [hSwap_length]
    omega
  have hp1perm := hSwap_perm recs h0 hnlt
  have hp1nd := hp1perm.nodup_iff.mpr nd
  have hp1ok := hSwap_indexOK h0 hnlt nd ok
  have hd := heapDown_spec ((a :: rest).length - 1 + 1) _ _ 0 ((a :: rest).length - 1)
    hnle1 hp1nd hp1ok
  have hperm2 := hd.1.1.trans hp1perm
  have hlen2 : (heapDown (hSwap recs (a :: rest) 0 ((a :: rest).length - 1)).1
      (hSwap recs (a :: rest) 0 ((a :: rest).length - 1)).2 0 ((a :: rest).length - 1)
      ((a :: rest).length - 1 + 1)).2.1.length = (a :: rest).length :=
    hperm2.length_eq
  have hpop : hGet (heapDown (hSwap recs (a :: rest) 0 ((a :: rest).length - 1)).1
      (hSwap recs (a :: rest) 0 ((a :: rest).length - 1)).2 0 ((a :: rest).length - 1)
      ((a :: rest).length - 1 + 1)).2.1 ((a :: rest).length - 1) = hGet (a :: rest) 0 := by
    rw [hd.2.2 _ (le_refl _), hSwap_arr, hGet_set_self (by simp)]
  have hnd2 := hperm2.nodup_iff.mpr nd
  have hdecomp := take_concat_hGet (l := (heapDown (hSwap recs (a :: rest) 0 ((a :: rest).length - 1)).1
      (hSwap recs (a :: rest) 0 ((a :: rest).length - 1)).2 0 ((a :: rest).length - 1)
      ((a :: rest).length - 1 + 1)).2.1) (n := (a :: rest).length - 1)
    (by rw [hlen2]; simp)
  refine ⟨by rw [hpop], ?_, ?_, ?_, ?_⟩
  · rw [← hpop, hdecomp]
    exact hperm2
  · intro q hq
    have hqlt : q < (a :: rest).length - 1 := by
      have := List.length_take_le ((a :: rest).length - 1)
        (heapDown (hSwap recs (a :: rest) 0 ((a :: rest).length - 1)).1
          (hSwap recs (a :: rest) 0 ((a :: rest).length - 1)).2 0 ((a :: rest).length - 1)
          ((a :: rest).length - 1 + 1)).2.1
      omega
    have hqlt2 : q < (heapDown (hSwap recs (a :: rest) 0 ((a :: rest).length - 1)).1
        (hSwap recs (a :: rest) 0 ((a :: rest).length - 1)).2 0 ((a :: rest).length - 1)
        ((a :: rest).length - 1 + 1)).2.1.length := by omega
    rw [hGet_take hqlt hqlt2]
    have hneq : hGet (heapDown (hSwap recs (a :: rest) 0 ((a :: rest).length - 1)).1
        (hSwap recs (a :: rest) 0 ((a :: rest).length - 1)).2 0 ((a :: rest).length - 1)
        ((a :: rest).length - 1 + 1)).2.1 q ≠
        hGet (heapDown (hSwap recs (a :: rest) 0 ((a :: rest).length - 1)).1
        (hSwap recs (a :: rest) 0 ((a :: rest).length - 1)).2 0 ((a :: rest).length - 1)
        ((a :: rest).length - 1 + 1)).2.1 ((a :: rest).length - 1) := by
      intro he
      have := hGet_inj hnd2 hqlt2 (by omega) he
      omega
    rw [setIndex_apply_ne hneq]
    exact hd.1.2 q hqlt2
  · intro n
    exact recSame_trans (setIndex_recSame _ _ _ n)
      (recSame_trans (hd.2.1 n) (hSwap_recSame _ _ _ _ n))
  · rw [List.length_take]
    omega

theorem heapFixGo_spec {recs : RecArena K} {arr : List Nat} {i : Nat}
    (hi : i < arr.length) (nd : arr.Nodup) (ok : IndexOK recs arr) :
    ((heapFixGo recs arr i).2.Perm arr ∧
      IndexOK (heapFixGo recs arr i).1 (heapFixGo recs arr i).2) ∧
    ∀ n, recSame ((heapFixGo recs arr i).1 n) (recs n) := by
  simp only [heapFixGo]
  have hd := heapDown_spec (arr.length + 1) recs arr i arr.length (le_refl _) nd ok
  split
  next =>
    have hup := heapUp_spec ((heapDown recs arr i arr.length (arr.length + 1)).2.1.length + 1)
      (heapDown recs arr i arr.length (arr.length + 1)).1
      (heapDown recs arr i arr.length (arr.length + 1)).2.1 i
      (by rw [hd.1.1.length_eq]; exact hi) (hd.1.1.nodup_iff.mpr nd) hd.1.2
    exact ⟨⟨hup.1.1.trans hd.1.1, hup.1.2⟩,
      fun n => recSame_trans (hup.2 n) (hd.2.1 n)⟩
  next => exact ⟨⟨hd.1.1, hd.1.2⟩, hd.2.1⟩

/-! ## Arena update lemmas -/

theorem fupd_same {α : Type} (f : Nat → α) (i : Nat) (v : α) : fupd f i v i = v := by
  simp [fupd]

theorem fupd_ne {α : Type} (f : Nat → α) (i : Nat) (v : α) {j : Nat} (h : j ≠ i) :
    fupd f i v j = f j := by
  simp [fupd, h]

/-! ## Branch equations of the cache operations -/

theorem Get_eq_miss {s : Cache K V} {k : K} (now : Nat)
    (h : mapLookup k s.cache = none) : Get k now s = (default, false, s) := by
  simp only [Get, h]

theorem Get_eq_expired {s : Cache K V} {k : K} {e : Nat} {now : Nat}
    (h : mapLookup k s.cache = some e)
    (hx : (s.elems e).expiration ≠ 0 ∧ (s.elems e).expiration < now) :
    Get k now s = (default, false,
      { s with ll := s.ll.erase e, cache := mapErase k s.cache }) := by
  simp only [Get, h, if_pos hx]

theorem Get_eq_live {s : Cache K V} {k : K} {e : Nat} {now : Nat}
    (h : mapLookup k s.cache = some e)
    (hx : ¬((s.elems e).expiration ≠ 0 ∧ (s.elems e).expiration < now)) :
    Get k now s = ((s.elems e).value, true, { s with ll := e :: s.ll.erase e }) := by
  simp only [Get, h, if_neg hx]

theorem Delete_eq_miss {s : Cache K V} {k : K} (h : mapLookup k s.cache = none) :
    Delete k s = s := by
  simp only [Delete, h]

theorem Delete_eq_some {s : Cache K V} {k : K} {e r : Nat}
    (h : mapLookup k s.cache = some e) (hr : (s.elems e).exp = some r) :
    Delete k s =
      { s with
        recs := fun n => if n = r then { s.recs n with canceled := true } else s.recs n
        ll := s.ll.erase e
        cache := mapErase k s.cache } := by
  simp only [Delete, h, hr]

theorem Delete_eq_some_noexp {s : Cache K V} {k : K} {e : Nat}
    (h : mapLookup k s.cache = some e) (hr : (s.elems e).exp = none) :
    Delete k s = { s with ll := s.ll.erase e, cache := mapErase k s.cache } := by
  simp only [Delete, h, hr]

theorem SetWithTTL_update_fix {s : Cache K V} {k : K} {v : V} {ttl : Int}
    {now : Nat} {e r : Nat} (h : mapLookup k s.cache = some e) (ht : 0 < ttl)
    (hr : (s.elems e).exp = some r) :
    SetWithTTL k v ttl now s =
      { s with
        elems := fupd s.elems e
          { s.elems e with value := v, expiration := now + ttl.toNat }
        ll := e :: s.ll.erase e
        recs := (heapFixGo
          (fun n => if n = r then { s.recs n with expiration := now + ttl.toNat }
            else s.recs n) s.expHeap (s.recs r).index.toNat).1
        expHeap := (heapFixGo
          (fun n => if n = r then { s.recs n with expiration := now + ttl.toNat }
            else s.recs n) s.expHeap (s.recs r).index.toNat).2
        pendingSignal := true } := by
  simp only [SetWithTTL, h, hr, if_pos ht, signalExpirationUpdate, ite_true,
    eq_self_iff_true]

theorem SetWithTTL_update_push {s : Cache K V} {k : K} {v : V} {ttl : Int}
    {now : Nat} {e : Nat} (h : mapLookup k s.cache = some e) (ht : 0 < ttl)
    (hr : (s.elems e).exp = none) :
    SetWithTTL k v ttl now s =
      { s with
        elems := fupd
          (fupd s.elems e { s.elems e with value := v, expiration := now + ttl.toNat })
          e { s.elems e with
              value := v, expiration := now + ttl.toNat, exp := some s.nextRec }
        ll := e :: s.ll.erase e
        recs := (heapPushGo (fupd s.recs s.nextRec ⟨k, now + ttl.toNat, 0, false⟩)
          s.expHeap s.nextRec).1
        expHeap := (heapPushGo (fupd s.recs s.nextRec ⟨k, now + ttl.toNat, 0, false⟩)
          s.expHeap s.nextRec).2
        nextRec := s.nextRec + 1
        pendingSignal := true } := by
  simp only [SetWithTTL, h, hr, if_pos ht, signalExpirationUpdate]

theorem SetWithTTL_update_cancel {s : Cache K V} {k : K} {v : V} {ttl : Int}
    {now : Nat} {e r : Nat} (h : mapLookup k s.cache = some e) (ht : ¬(0 < ttl))
    (hr : (s.elems e).exp = some r) :
    SetWithTTL k v ttl now s =
      { s with
        elems := fupd
          (fupd s.elems e { s.elems e with value := v, expiration := 0 })
          e { s.elems e with
              value := v, expiration := 0, exp := none }
        ll := e :: s.ll.erase e
        recs := fun n => if n = r then { s.recs n with canceled := true }
          else s.recs n } := by
  simp only [SetWithTTL, h, hr, if_neg ht]

theorem SetWithTTL_update_plain {s : Cache K V} {k : K} {v : V} {ttl : Int}
    {now : Nat} {e : Nat} (h : mapLookup k s.cache = some e) (ht : ¬(0 < ttl))
    (hr : (s.elems e).exp = none) :
    SetWithTTL k v ttl now s =
      { s with
        elems := fupd s.elems e { s.elems e with value := v, expiration := 0 }
        ll := e :: s.ll.erase e } := by
  simp only [SetWithTTL, h, hr, if_neg ht]

theorem SetWithTTL_insert_pos {s : Cache K V} {k : K} {v : V} {ttl : Int}
    {now : Nat} (h : mapLookup k s.cache = none) (ht : 0 < ttl) :
    SetWithTTL k v ttl now s =
      (if ((mkInsertPos k v ttl now s).capacity <
          ((mkInsertPos k v ttl now s).ll.length : Int))
        then removeOldestLocked (mkInsertPos k v ttl now s)
        else mkInsertPos k v ttl now s) := by
  simp only [SetWithTTL, h, if_pos ht, signalExpirationUpdate, mkInsertPos]

theorem SetWithTTL_insert_nonpos {s : Cache K V} {k : K} {v : V} {ttl : Int}
    {now : Nat} (h : mapLookup k s.cache = none) (ht : ¬(0 < ttl)) :
    SetWithTTL k v ttl now s =
      (if ((mkInsertNonpos k v s).capacity < ((mkInsertNonpos k v s).ll.length : Int))
        then removeOldestLocked (mkInsertNonpos k v s)
        else mkInsertNonpos k v s) := by
  simp only [SetWithTTL, h, if_neg ht, mkInsertNonpos]

/-! ## Structural consequences of the invariant -/

theorem lookup_snd_mem_ll {s : Cache K V} (inv : InvCore s) {k : K} {e : Nat}
    (h : mapLookup k s.cache = some e) : e ∈ s.ll :=
  inv.llPerm.mem_iff.mp (List.mem_map.mpr ⟨(k, e), mapLookup_mem h, rfl⟩)

theorem mapErase_snd_perm {s : Cache K V} (inv : InvCore s) {k : K} {e : Nat}
    (h : mapLookup k s.cache = some e) :
    ((mapErase k s.cache).map Prod.snd).Perm (s.ll.erase e) := by
  have hdec := perm_cons_mapErase inv.keysNodup h
  have h1 : (s.cache.map Prod.snd).Perm (e :: (mapErase k s.cache).map Prod.snd) :=
    hdec.map Prod.snd
  have h2 : (e :: (mapErase k s.cache).map Prod.snd).Perm s.ll :=
    h1.symm.trans inv.llPerm
  have h3 : s.ll.Perm (e :: s.ll.erase e) :=
    List.perm_cons_erase (lookup_snd_mem_ll inv h)
  exact (h2.trans h3).cons_inv

theorem removeEntry_invCore {s : Cache K V} (inv : InvCore s) {k : K} {e : Nat}
    (h : mapLookup k s.cache = some e) :
    InvCore { s with ll := s.ll.erase e, cache := mapErase k s.cache } where
  keysNodup := (((mapErase_sublist k s.cache).map Prod.fst).nodup inv.keysNodup)
  llPerm := mapErase_snd_perm inv h
  llNodup := inv.llNodup.erase e
  llBound := fun e' h' => inv.llBound e' (List.mem_of_mem_erase h')
  keyMatch := fun p hp => inv.keyMatch p (mem_mapErase.mp hp).1
  heapBound := inv.heapBound
  heapNodup := inv.heapNodup
  heapIndexOK := inv.heapIndexOK
  attached := fun p hp r hr => inv.attached p (mem_mapErase.mp hp).1 r hr

theorem sizeCap_of_erase {s : Cache K V} (inv : Inv s) (e : Nat) :
    ((s.ll.erase e).length : Int) ≤ s.capacity :=
  le_trans (by exact_mod_cast (s.ll.erase_sublist e).length_le) inv.sizeCap

/-! ## Invariant preservation: Get, Delete, Dump, signal -/

theorem Get_inv {s : Cache K V} (inv : Inv s) (k : K) (now : Nat) :
    Inv (Get k now s).2.2 := by
  rcases hlk : mapLookup k s.cache with - | e
  · rw [Get_eq_miss now hlk]
    exact inv
  · by_cases hx : (s.elems e).expiration ≠ 0 ∧ (s.elems e).expiration < now
    · rw [Get_eq_expired hlk hx]
      exact ⟨removeEntry_invCore inv.core hlk, sizeCap_of_erase inv e, inv.capPos⟩
    · rw [Get_eq_live hlk hx]
      have he : e ∈ s.ll := lookup_snd_mem_ll inv.core hlk
      have hlen : (e :: s.ll.erase e).length = s.ll.length := by
        rw [List.length_cons, List.length_erase_of_mem he]
        have : 0 < s.ll.length := List.length_pos.mpr (List.ne_nil_of_mem he)
        omega
      refine ⟨?_, ?_, inv.capPos⟩
      · exact
          { keysNodup := inv.core.keysNodup
            llPerm := inv.core.llPerm.trans (List.perm_cons_erase he)
            llNodup := List.nodup_cons.mpr
              ⟨inv.core.llNodup.not_mem_erase, inv.core.llNodup.erase e⟩
            llBound := by
              intro e' h'
              rcases List.mem_cons.mp h' with h' | h'
              · exact h' ▸ inv.core.llBound e he
              · exact inv.core.llBound e' (List.mem_of_mem_erase h')
            keyMatch := inv.core.keyMatch
            heapBound := inv.core.heapBound
            heapNodup := inv.core.heapNodup
            heapIndexOK := inv.core.heapIndexOK
            attached := inv.core.attached }
      · rw [show ((e :: s.ll.erase e).length : Int) = (s.ll.length : Int) by
          exact_mod_cast congrArg Nat.cast hlen]
        exact inv.sizeCap

theorem Delete_inv {s : Cache K V} (inv : Inv s) (k : K) : Inv (Delete k s) := by
  rcases hlk : mapLookup k s.cache with - | e
  · rw [Delete_eq_miss hlk]
    exact inv
  · rcases hre : (s.elems e).exp with - | r
    · rw [Delete_eq_some_noexp hlk hre]
      exact ⟨removeEntry_invCore inv.core hlk, sizeCap_of_erase inv e, inv.capPos⟩
    · rw [Delete_eq_some hlk hre]
      refine ⟨?_, sizeCap_of_erase inv e, inv.capPos⟩
      have base := removeEntry_invCore inv.core hlk
      exact
        { keysNodup := base.keysNodup
          llPerm := base.llPerm
          llNodup := base.llNodup
          llBound := base.llBound
          keyMatch := base.keyMatch
          heapBound := inv.core.heapBound
          heapNodup := inv.core.heapNodup
          heapIndexOK := IndexOK_congr
            (fun n => by by_cases hn : n = r <;> simp [hn]) inv.core.heapIndexOK
          attached := by
            intro p hp r' hr'
            have hpc := (mem_mapErase.mp hp).1
            have hpk := (mem_mapErase.mp hp).2
            have hfacts := inv.core.attached p hpc r' hr'
            have hrr : r' ≠ r := by
              intro hrr
              have h1 : (s.recs r).key = k :=
                (inv.core.attached (k, e) (mapLookup_mem hlk) r hre).2.1
              exact hpk ((hrr ▸ hfacts.2.1).symm.trans h1)
            simp only [if_neg hrr]
            exact hfacts }

theorem Dump_inv {s : Cache K V} (inv : Inv s) : Inv (Dump s) := by
  refine ⟨?_, by simpa using le_of_lt inv.capPos, inv.capPos⟩
  exact
    { keysNodup := List.nodup_nil
      llPerm := List.Perm.refl []
      llNodup := List.nodup_nil
      llBound := by simp [Dump]
      keyMatch := by simp [Dump]
      heapBound := by simp [Dump]
      heapNodup := List.nodup_nil
      heapIndexOK := by intro i hi; simp [Dump] at hi
      attached := by simp [Dump] }

theorem consumeSignal_inv {s : Cache K V} (inv : Inv s) :
    Inv { s with pendingSignal := false } :=
  ⟨{ keysNodup := inv.core.keysNodup
     llPerm := inv.core.llPerm
     llNodup := inv.core.llNodup
     llBound := inv.core.llBound
     keyMatch := inv.core.keyMatch
     heapBound := inv.core.heapBound
     heapNodup := inv.core.heapNodup
     heapIndexOK := inv.core.heapIndexOK
     attached := inv.core.attached }, inv.sizeCap, inv.capPos⟩

/-! ## Eviction lemmas -/

theorem removeOldest_nil {s : Cache K V} (h : s.ll = []) :
    removeOldestLocked s = s := by
  simp [removeOldestLocked, h]

theorem not_mem_dropLast_getLast {l : List Nat} (nd : l.Nodup) (hne : l ≠ []) :
    l.getLast hne ∉ l.dropLast := by
  intro hmem
  have hsplit : l.dropLast ++ [l.getLast hne] = l := List.dropLast_concat_getLast hne
  have : (l.dropLast ++ [l.getLast hne]).Nodup := by rw [hsplit]; exact nd
  rcases List.nodup_append.mp this with ⟨-, -, hdisj⟩
  exact hdisj hmem (List.mem_singleton_self _)

theorem dropLast_perm_erase_getLast {l : List Nat} (nd : l.Nodup) (hne : l ≠ []) :
    (l.dropLast).Perm (l.erase (l.getLast hne)) := by
  have hsplit : l.dropLast ++ [l.getLast hne] = l := List.dropLast_concat_getLast hne
  have he : l.getLast hne ∈ l := l.getLast_mem hne
  have h0 : (l.dropLast ++ [l.getLast hne]).Perm l := by
    rw [hsplit]
  have h1 : (l.getLast hne :: l.dropLast).Perm l :=
    (List.perm_append_singleton _ _).symm.trans h0
  exact (h1.trans (List.perm_cons_erase he)).cons_inv

theorem removeOldest_spec {s : Cache K V} (inv : InvCore s) (hne : s.ll ≠ []) :
    InvCore (removeOldestLocked s) ∧
    (removeOldestLocked s).ll = s.ll.dropLast ∧
    (removeOldestLocked s).capacity = s.capacity ∧
    (removeOldestLocked s).elems = s.elems ∧
    (removeOldestLocked s).expHeap = s.expHeap ∧
    ∀ k' e', mapLookup k' (removeOldestLocked s).cache = some e' ↔
      (mapLookup k' s.cache = some e' ∧ e' ∈ s.ll.dropLast) := by
  have hlast : s.ll.getLast? = some (s.ll.getLast hne) :=
    List.getLast?_eq_getLast s.ll hne
  have he0 : s.ll.getLast hne ∈ s.ll := s.ll.getLast_mem hne
  obtain ⟨p0, hp0, hsnd⟩ :=
    List.mem_map.mp (inv.llPerm.mem_iff.mpr he0)
  have hk0 : (s.elems (s.ll.getLast hne)).key = p0.1 := by
    rw [← hsnd]
    exact inv.keyMatch p0 hp0
  have hbind : ((s.elems (s.ll.getLast hne)).key, s.ll.getLast hne) = p0 := by
    rw [hk0, ← hsnd]
  have hlk0 : mapLookup ((s.elems (s.ll.getLast hne)).key) s.cache =
      some (s.ll.getLast hne) :=
    mapLookup_of_mem inv.keysNodup (hbind ▸ hp0)
  have hperm' : ((mapErase ((s.elems (s.ll.getLast hne)).key) s.cache).map
      Prod.snd).Perm s.ll.dropLast :=
    (mapErase_snd_perm inv hlk0).trans (dropLast_perm_erase_getLast inv.llNodup hne).symm
  have hlookup : ∀ k' e',
      mapLookup k' (mapErase ((s.elems (s.ll.getLast hne)).key) s.cache) = some e' ↔
      (mapLookup k' s.cache = some e' ∧ e' ∈ s.ll.dropLast) := by
    intro k' e'
    constructor
    · intro h'
      by_cases hk : k' = (s.elems (s.ll.getLast hne)).key
      · rw [hk, mapLookup_mapErase_self] at h'
        exact absurd h' (by simp)
      · rw [mapLookup_mapErase_ne hk] at h'
        refine ⟨h', ?_⟩
        have hm : e' ∈ (mapErase ((s.elems (s.ll.getLast hne)).key) s.cache).map
            Prod.snd :=
          List.mem_map.mpr ⟨(k', e'),
            mem_mapErase.mpr ⟨mapLookup_mem h', hk⟩, rfl⟩
        exact hperm'.mem_iff.mp hm
    · rintro ⟨h', hmem⟩
      by_cases hk : k' = (s.elems (s.ll.getLast hne)).key
      · rw [hk] at h'
        have he' : e' = s.ll.getLast hne := Option.some.inj (h'.symm.trans hlk0)
        rw [he'] at hmem
        exact absurd hmem (not_mem_dropLast_getLast inv.llNodup hne)
      · rw [mapLookup_mapErase_ne hk]
        exact h'
  have hcore : ∀ recs' : RecArena K,
      (∀ n, (recs' n).index = (s.recs n).index) →
      (∀ p ∈ mapErase ((s.elems (s.ll.getLast hne)).key) s.cache, ∀ r,
        (s.elems p.2).exp = some r → recs' r = s.recs r) →
      InvCore
        { s with
          recs := recs'
          ll := s.ll.dropLast
          cache := mapErase ((s.elems (s.ll.getLast hne)).key) s.cache } := by
    intro recs' hidx hkeep
    exact
      { keysNodup := ((mapErase_sublist _ s.cache).map Prod.fst).nodup inv.keysNodup
        llPerm := hperm'
        llNodup := inv.llNodup.sublist (List.dropLast_sublist s.ll)
        llBound := fun e' h' =>
          inv.llBound e' ((List.dropLast_sublist s.ll).mem h')
        keyMatch := fun p hp => inv.keyMatch p (mem_mapErase.mp hp).1
        heapBound := inv.heapBound
        heapNodup := inv.heapNodup
        heapIndexOK := IndexOK_congr (fun n => (hidx n).symm) inv.heapIndexOK
        attached := by
          intro p hp r hr
          dsimp only at hp hr ⊢
          rw [hkeep p hp r hr]
          exact inv.attached p (mem_mapErase.mp hp).1 r hr }
  rcases hre : (s.elems (s.ll.getLast hne)).exp with - | r0
  · have heq : removeOldestLocked s =
        { s with
          ll := s.ll.dropLast
          cache := mapErase ((s.elems (s.ll.getLast hne)).key) s.cache } := by
      simp only [removeOldestLocked, hlast, hre]
    rw [heq]
    exact ⟨hcore s.recs (fun _ => rfl) (fun _ _ _ _ => rfl), rfl, rfl, rfl, rfl,
      hlookup⟩
  · have heq : removeOldestLocked s =
        { s with
          recs := fun n => if n = r0 then { s.recs n with canceled := true }
            else s.recs n
          ll := s.ll.dropLast
          cache := mapErase ((s.elems (s.ll.getLast hne)).key) s.cache } := by
      simp only [removeOldestLocked, hlast, hre]
    rw [heq]
    refine ⟨hcore _ (fun n => by by_cases hn : n = r0 <;> simp [hn]) ?_, rfl, rfl,
      rfl, rfl, hlookup⟩
    intro p hp r hr
    have hpk := (mem_mapErase.mp hp).2
    have hfacts := inv.attached p (mem_mapErase.mp hp).1 r hr
    have hk0r : (s.recs r0).key = (s.elems (s.ll.getLast hne)).key := by
      rw [hk0]
      exact (inv.attached p0 hp0 r0 (by rw [← hsnd] at hre; exact hre)).2.1
    have hrr : r ≠ r0 := by
      intro hrr
      exact hpk ((hrr ▸ hfacts.2.1).symm.trans hk0r)
    simp [hrr]

/-! ## Uniqueness helpers -/

theorem eq_of_mem_keysNodup :
    ∀ {m : List (K × Nat)}, (m.map Prod.fst).Nodup →
      ∀ {p q : K × Nat}, p ∈ m → q ∈ m → p.1 = q.1 → p = q
  | [], _, _, _, hp, _, _ => by simp at hp
  | x :: rest, nd, p, q, hp, hq, hpq => by
    have nd2 : (x.1 :: rest.map Prod.fst).Nodup := by
      rw [← List.map_cons]
      exact nd
    obtain ⟨hx, ndr⟩ := List.nodup_cons.mp nd2
    rcases List.mem_cons.mp hp with hp | hp <;> rcases List.mem_cons.mp hq with hq | hq
    · rw [hp, hq]
    · exfalso
      have hm : q.1 ∈ rest.map Prod.fst := List.mem_map.mpr ⟨q, hq, rfl⟩
      rw [← hpq, hp] at hm
      exact hx hm
    · exfalso
      have hm : p.1 ∈ rest.map Prod.fst := List.mem_map.mpr ⟨p, hp, rfl⟩
      rw [hpq, hq] at hm
      exact hx hm
    · exact eq_of_mem_keysNodup ndr hp hq hpq

theorem cache_snd_nodup {s : Cache K V} (inv : InvCore s) :
    (s.cache.map Prod.snd).Nodup :=
  inv.llPerm.nodup_iff.mpr inv.llNodup

theorem eq_of_mem_sndNodup :
    ∀ {m : List (K × Nat)}, (m.map Prod.snd).Nodup →
      ∀ {p q : K × Nat}, p ∈ m → q ∈ m → p.2 = q.2 → p = q
  | [], _, _, _, hp, _, _ => by simp at hp
  | x :: rest, nd, p, q, hp, hq, hpq => by
    have nd2 : (x.2 :: rest.map Prod.snd).Nodup := by
      rw [← List.map_cons]
      exact nd
    obtain ⟨hx, ndr⟩ := List.nodup_cons.mp nd2
    rcases List.mem_cons.mp hp with hp | hp <;> rcases List.mem_cons.mp hq with hq | hq
    · rw [hp, hq]
    · exfalso
      have hm : q.2 ∈ rest.map Prod.snd := List.mem_map.mpr ⟨q, hq, rfl⟩
      rw [← hpq, hp] at hm
      exact hx hm
    · exfalso
      have hm : p.2 ∈ rest.map Prod.snd := List.mem_map.mpr ⟨p, hp, rfl⟩
      rw [hpq, hq] at hm
      exact hx hm
    · exact eq_of_mem_sndNodup ndr hp hq hpq

theorem binding_eq_of_snd {s : Cache K V} (inv : InvCore s) {k : K} {e : Nat}
    (hlk : mapLookup k s.cache = some e) {p : K × Nat} (hp : p ∈ s.cache)
    (hsnd : p.2 = e) : p = (k, e) :=
  eq_of_mem_sndNodup (cache_snd_nodup inv) hp (mapLookup_mem hlk) hsnd

theorem binding_key_ne_of_snd_ne {s : Cache K V} (inv : InvCore s) {k : K} {e : Nat}
    (hlk : mapLookup k s.cache = some e) {p : K × Nat} (hp : p ∈ s.cache)
    (hsnd : p.2 ≠ e) : p.1 ≠ k := by
  intro hk
  have := eq_of_mem_keysNodup inv.keysNodup hp (mapLookup_mem hlk) hk
  exact hsnd (by rw [this])

/-! ## Move-to-front facts -/

theorem moveFront_facts {s : Cache K V} (inv : Inv s) {e : Nat} (he : e ∈ s.ll) :
    ((s.cache.map Prod.snd).Perm (e :: s.ll.erase e)) ∧
    (e :: s.ll.erase e).Nodup ∧
    (∀ e' ∈ e :: s.ll.erase e, e' < s.nextElem) ∧
    ((e :: s.ll.erase e).length : Int) ≤ s.capacity := by
  have hlen : (e :: s.ll.erase e).length = s.ll.length := by
    rw [List.length_cons, List.length_erase_of_mem he]
    have : 0 < s.ll.length := List.length_pos.mpr (List.ne_nil_of_mem he)
    omega
  refine ⟨inv.core.llPerm.trans (List.perm_cons_erase he),
    List.nodup_cons.mpr ⟨inv.core.llNodup.not_mem_erase, inv.core.llNodup.erase e⟩,
    ?_, ?_⟩
  · intro e' h'
    rcases List.mem_cons.mp h' with h' | h'
    · exact h' ▸ inv.core.llBound e he
    · exact inv.core.llBound e' (List.mem_of_mem_erase h')
  · rw [show ((e :: s.ll.erase e).length : Int) = (s.ll.length : Int) by
      exact_mod_cast congrArg Nat.cast hlen]
    exact inv.sizeCap

/-! ## Conditional-eviction closing step of an insert -/

theorem evictIf_inv {s2 : Cache K V} (core : InvCore s2)
    (hlen : (s2.ll.length : Int) ≤ s2.capacity + 1) (hcap : 0 < s2.capacity) :
    Inv (if s2.capacity < (s2.ll.length : Int) then removeOldestLocked s2 else s2) := by
  split
  next hlt =>
    have hne : s2.ll ≠ [] := by
      intro h
      rw [h] at hlt
      simp at hlt
      omega
    obtain ⟨core', hll, hcapEq, -, -, -⟩ := removeOldest_spec core hne
    refine ⟨core', ?_, by rw [hcapEq]; exact hcap⟩
    rw [hll, hcapEq]
    have : (s2.ll.dropLast).length = s2.ll.length - 1 := by
      rw [List.length_dropLast]
    rw [this]
    have hpos : 0 < s2.ll.length := List.length_pos.mpr hne
    have : ((s2.ll.length - 1 : Nat) : Int) = (s2.ll.length : Int) - 1 := by omega
    rw [this]
    omega
  next hge => exact ⟨core, not_lt.mp hge, hcap⟩

/-! ## Insert-path intermediate states satisfy the core invariant -/

theorem mkInsertNonpos_core {s : Cache K V} (inv : InvCore s) {k : K} (v : V)
    (hlk : mapLookup k s.cache = none) :
    InvCore (mkInsertNonpos k v s) := by
  have hcache : mapInsert k s.nextElem s.cache = s.cache ++ [(k, s.nextElem)] :=
    mapInsert_of_lookup_none hlk
  have hknotin : k ∉ s.cache.map Prod.fst := (mapLookup_eq_none k s.cache).mp hlk
  have heid : s.nextElem ∉ s.ll := fun h => lt_irrefl _ (inv.llBound _ h)
  refine
    { keysNodup := ?_
      llPerm := ?_
      llNodup := List.nodup_cons.mpr ⟨heid, inv.llNodup⟩
      llBound := ?_
      keyMatch := ?_
      heapBound := inv.heapBound
      heapNodup := inv.heapNodup
      heapIndexOK := inv.heapIndexOK
      attached := ?_ }
  · rw [show (mkInsertNonpos k v s).cache = s.cache ++ [(k, s.nextElem)] from hcache]
    rw [List.map_append]
    refine List.nodup_append.mpr ⟨inv.keysNodup, List.nodup_singleton k, ?_⟩
    intro a ha hb
    have hak : a = k := by simpa using hb
    rw [hak] at ha
    exact hknotin ha
  · rw [show (mkInsertNonpos k v s).cache = s.cache ++ [(k, s.nextElem)] from hcache]
    rw [List.map_append]
    exact (List.perm_append_singleton _ _).trans (inv.llPerm.cons _)
  · intro e' h'
    rcases List.mem_cons.mp h' with h' | h'
    · subst h'
      exact Nat.lt_succ_self _
    · exact lt_trans (inv.llBound e' h') (Nat.lt_succ_self _)
  · intro p hp
    rw [show (mkInsertNonpos k v s).cache = s.cache ++ [(k, s.nextElem)] from hcache]
      at hp
    rcases List.mem_append.mp hp with hp | hp
    · have hne : p.2 ≠ s.nextElem := by
        intro h
        apply heid
        rw [← h]
        exact inv.llPerm.mem_iff.mp (List.mem_map.mpr ⟨p, hp, rfl⟩)
      show (fupd s.elems s.nextElem _ p.2).key = p.1
      rw [fupd_ne _ _ _ hne]
      exact inv.keyMatch p hp
    · have hpk : p = (k, s.nextElem) := by simpa using hp
      rw [hpk]
      show (fupd s.elems s.nextElem _ s.nextElem).key = k
      rw [fupd_same]
  · intro p hp r hr
    rw [show (mkInsertNonpos k v s).cache = s.cache ++ [(k, s.nextElem)] from hcache]
      at hp
    rcases List.mem_append.mp hp with hp | hp
    · have hne : p.2 ≠ s.nextElem := by
        intro h
        apply heid
        rw [← h]
        exact inv.llPerm.mem_iff.mp (List.mem_map.mpr ⟨p, hp, rfl⟩)
      rw [show ((mkInsertNonpos k v s).elems p.2) = s.elems p.2 from
        fupd_ne _ _ _ hne] at hr ⊢
      exact inv.attached p hp r hr
    · have hpk : p = (k, s.nextElem) := by simpa using hp
      rw [hpk] at hr
      rw [show ((mkInsertNonpos k v s).elems s.nextElem) =
        ⟨k, v, 0, none⟩ from fupd_same _ _ _] at hr
      simp at hr

theorem mkInsertPos_core {s : Cache K V} (inv : InvCore s) {k : K} {v : V}
    {ttl : Int} {now : Nat} (hlk : mapLookup k s.cache = none) (ht : 0 < ttl) :
    InvCore (mkInsertPos k v ttl now s) := by
  have hcache : mapInsert k s.nextElem s.cache = s.cache ++ [(k, s.nextElem)] :=
    mapInsert_of_lookup_none hlk
  have hknotin : k ∉ s.cache.map Prod.fst := (mapLookup_eq_none k s.cache).mp hlk
  have heid : s.nextElem ∉ s.ll := fun h => lt_irrefl _ (inv.llBound _ h)
  have hrid : s.nextRec ∉ s.expHeap := fun h => lt_irrefl _ (inv.heapBound _ h)
  have ok1 : IndexOK (fupd s.recs s.nextRec ⟨k, now + ttl.toNat, 0, false⟩)
      s.expHeap := by
    intro i hi
    have : hGet s.expHeap i ≠ s.nextRec := by
      intro he
      exact hrid (he ▸ hGet_mem hi)
    rw [fupd_ne _ _ _ this]
    exact inv.heapIndexOK i hi
  have spec := heapPushGo_spec hrid inv.heapNodup ok1
  have hE : now + ttl.toNat ≠ 0 := by omega
  refine
    { keysNodup := ?_
      llPerm := ?_
      llNodup := List.nodup_cons.mpr ⟨heid, inv.llNodup⟩
      llBound := ?_
      keyMatch := ?_
      heapBound := ?_
      heapNodup := ?_
      heapIndexOK := spec.1.2
      attached := ?_ }
  · rw [show (mkInsertPos k v ttl now s).cache = s.cache ++ [(k, s.nextElem)]
      from hcache]
    rw [List.map_append]
    refine List.nodup_append.mpr ⟨inv.keysNodup, List.nodup_singleton k, ?_⟩
    intro a ha hb
    have hak : a = k := by simpa using hb
    rw [hak] at ha
    exact hknotin ha
  · rw [show (mkInsertPos k v ttl now s).cache = s.cache ++ [(k, s.nextElem)]
      from hcache]
    rw [List.map_append]
    exact (List.perm_append_singleton _ _).trans (inv.llPerm.cons _)
  · intro e' h'
    rcases List.mem_cons.mp h' with h' | h'
    · subst h'
      exact Nat.lt_succ_self _
    · exact lt_trans (inv.llBound e' h') (Nat.lt_succ_self _)
  · intro p hp
    rw [show (mkInsertPos k v ttl now s).cache = s.cache ++ [(k, s.nextElem)]
      from hcache] at hp
    rcases List.mem_append.mp hp with hp | hp
    · have hne : p.2 ≠ s.nextElem := by
        intro h
        apply heid
        rw [← h]
        exact inv.llPerm.mem_iff.mp (List.mem_map.mpr ⟨p, hp, rfl⟩)
      show (fupd (fupd s.elems s.nextElem _) s.nextElem _ p.2).key = p.1
      rw [fupd_ne _ _ _ hne, fupd_ne _ _ _ hne]
      exact inv.keyMatch p hp
    · have hpk : p = (k, s.nextElem) := by simpa using hp
      rw [hpk]
      show (fupd (fupd s.elems s.nextElem _) s.nextElem _ s.nextElem).key = k
      rw [fupd_same]
  · intro r hr
    have : r ∈ s.nextRec :: s.expHeap := spec.1.1.mem_iff.mp hr
    rcases List.mem_cons.mp this with h | h
    · subst h
      exact Nat.lt_succ_self _
    · exact lt_trans (inv.heapBound r h) (Nat.lt_succ_self _)
  · exact spec.1.1.nodup_iff.mpr (List.nodup_cons.mpr ⟨hrid, inv.heapNodup⟩)
  · intro p hp r hr
    dsimp only [mkInsertPos] at hp hr ⊢
    rw [hcache] at hp
    rcases List.mem_append.mp hp with hp | hp
    · have hne : p.2 ≠ s.nextElem := by
        intro h
        apply heid
        rw [← h]
        exact inv.llPerm.mem_iff.mp (List.mem_map.mpr ⟨p, hp, rfl⟩)
      rw [fupd_ne _ _ _ hne, fupd_ne _ _ _ hne] at hr ⊢
      have hfacts := inv.attached p hp r hr
      have hrne : r ≠ s.nextRec := fun h => hrid (h ▸ hfacts.1)
      have hsame := spec.2 r
      have hrecs1 : fupd s.recs s.nextRec ⟨k, now + ttl.toNat, 0, false⟩ r =
          s.recs r := fupd_ne _ _ _ hrne
      refine ⟨spec.1.1.mem_iff.mpr (List.mem_cons_of_mem _ hfacts.1), ?_, ?_, ?_,
        hfacts.2.2.2.2⟩
      · rw [hsame.1, hrecs1]
        exact hfacts.2.1
      · rw [hsame.2.2, hrecs1]
        exact hfacts.2.2.1
      · rw [hsame.2.1, hrecs1]
        exact hfacts.2.2.2.1
    · have hpk : p = (k, s.nextElem) := by simpa using hp
      rw [hpk] at hr ⊢
      rw [fupd_same] at hr ⊢
      have hrrid : r = s.nextRec := by
        have : some s.nextRec = some r := hr
        exact (Option.some.inj this).symm
      subst hrrid
      have hsame := spec.2 s.nextRec
      have hrecs1 : fupd s.recs s.nextRec ⟨k, now + ttl.toNat, 0, false⟩ s.nextRec =
          ⟨k, now + ttl.toNat, 0, false⟩ := fupd_same _ _ _
      refine ⟨spec.1.1.mem_iff.mpr (List.mem_cons_self _ _), ?_, ?_, ?_, hE⟩
      · rw [hsame.1, hrecs1]
      · rw [hsame.2.2, hrecs1]
      · rw [hsame.2.1, hrecs1]

/-! ## Invariant preservation: SetWithTTL -/

theorem SetWithTTL_inv {s : Cache K V} (inv : Inv s) (k : K) (v : V) (ttl : Int)
    (now : Nat) : Inv (SetWithTTL k v ttl now s) := by
  rcases hlk : mapLookup k s.cache with - | e
  · -- insert path
    by_cases ht : 0 < ttl
    · rw [SetWithTTL_insert_pos hlk ht]
      refine evictIf_inv (mkInsertPos_core inv.core hlk ht) ?_ inv.capPos
      show (((s.nextElem :: s.ll).length : Nat) : Int) ≤ s.capacity + 1
      rw [List.length_cons]
      push_cast
      have := inv.sizeCap
      omega
    · rw [SetWithTTL_insert_nonpos hlk ht]
      refine evictIf_inv (mkInsertNonpos_core inv.core v hlk) ?_ inv.capPos
      show (((s.nextElem :: s.ll).length : Nat) : Int) ≤ s.capacity + 1
      rw [List.length_cons]
      push_cast
      have := inv.sizeCap
      omega
  · -- update path
    have he : e ∈ s.ll := lookup_snd_mem_ll inv.core hlk
    have mf := moveFront_facts inv he
    have hbind := mapLookup_mem hlk
    by_cases ht : 0 < ttl
    · rcases hre : (s.elems e).exp with - | r
      · -- reuse nothing: push a fresh record
        rw [SetWithTTL_update_push hlk ht hre]
        have hrid : s.nextRec ∉ s.expHeap :=
          fun h => lt_irrefl _ (inv.core.heapBound _ h)
        have ok1 : IndexOK (fupd s.recs s.nextRec ⟨k, now + ttl.toNat, 0, false⟩)
            s.expHeap := by
          intro i hi
          have hg : hGet s.expHeap i ≠ s.nextRec := by
            intro heq
            exact hrid (heq ▸ hGet_mem hi)
          rw [fupd_ne _ _ _ hg]
          exact inv.core.heapIndexOK i hi
        have spec := heapPushGo_spec hrid inv.core.heapNodup ok1
        have hE : now + ttl.toNat ≠ 0 := by omega
        refine ⟨?_, mf.2.2.2, inv.capPos⟩
        refine
          { keysNodup := inv.core.keysNodup
            llPerm := mf.1
            llNodup := mf.2.1
            llBound := mf.2.2.1
            keyMatch := ?_
            heapBound := ?_
            heapNodup := spec.1.1.nodup_iff.mpr
              (List.nodup_cons.mpr ⟨hrid, inv.core.heapNodup⟩)
            heapIndexOK := spec.1.2
            attached := ?_ }
        · intro p hp
          dsimp only
          by_cases hpe : p.2 = e
          · have hpk := binding_eq_of_snd inv.core hlk hp hpe
            rw [hpk]
            dsimp only
            rw [fupd_same]
            exact inv.core.keyMatch (k, e) hbind
          · rw [fupd_ne _ _ _ hpe, fupd_ne _ _ _ hpe]
            exact inv.core.keyMatch p hp
        · intro r hr
          dsimp only at hr
          have : r ∈ s.nextRec :: s.expHeap := spec.1.1.mem_iff.mp hr
          rcases List.mem_cons.mp this with h | h
          · subst h
            exact Nat.lt_succ_self _
          · exact lt_trans (inv.core.heapBound r h) (Nat.lt_succ_self _)
        · intro p hp r hr
          dsimp only at hp hr ⊢
          by_cases hpe : p.2 = e
          · have hpk := binding_eq_of_snd inv.core hlk hp hpe
            rw [hpe, fupd_same] at hr
            have hrr : r = s.nextRec := (Option.some.inj hr).symm
            subst hrr
            have hsame := spec.2 s.nextRec
            have hrecs1 : fupd s.recs s.nextRec ⟨k, now + ttl.toNat, 0, false⟩
                s.nextRec = ⟨k, now + ttl.toNat, 0, false⟩ := fupd_same _ _ _
            rw [hpe, fupd_same]
            refine ⟨spec.1.1.mem_iff.mpr (List.mem_cons_self _ _), ?_, ?_, ?_, hE⟩
            · rw [hsame.1, hrecs1, hpk]
            · rw [hsame.2.2, hrecs1]
            · rw [hsame.2.1, hrecs1]
          · rw [fupd_ne _ _ _ hpe, fupd_ne _ _ _ hpe] at hr ⊢
            have hfacts := inv.core.attached p hp r hr
            have hrne : r ≠ s.nextRec := fun h => hrid (h ▸ hfacts.1)
            have hsame := spec.2 r
            have hrecs1 : fupd s.recs s.nextRec ⟨k, now + ttl.toNat, 0, false⟩ r =
                s.recs r := fupd_ne _ _ _ hrne
            refine ⟨spec.1.1.mem_iff.mpr (List.mem_cons_of_mem _ hfacts.1),
              ?_, ?_, ?_, hfacts.2.2.2.2⟩
            · rw [hsame.1, hrecs1]
              exact hfacts.2.1
            · rw [hsame.2.2, hrecs1]
              exact hfacts.2.2.1
            · rw [hsame.2.1, hrecs1]
              exact hfacts.2.2.2.1
      · -- reuse the attached record and heap.Fix it
        rw [SetWithTTL_update_fix hlk ht hre]
        have hfacts0 := inv.core.attached (k, e) hbind r hre
        have hrmem : r ∈ s.expHeap := hfacts0.1
        have ok1 : IndexOK
            (fun n => if n = r then { s.recs n with expiration := now + ttl.toNat }
              else s.recs n) s.expHeap :=
          IndexOK_congr (fun n => by by_cases hn : n = r <;> simp [hn])
            inv.core.heapIndexOK
        obtain ⟨pos, hposlt, hpose⟩ := mem_hGet_pos hrmem
        have hidx : (s.recs r).index = (pos : Int) := by
          rw [← hpose]
          exact inv.core.heapIndexOK pos hposlt
        have hilt : (s.recs r).index.toNat < s.expHeap.length := by
          rw [hidx]
          simpa using hposlt
        have spec := heapFixGo_spec hilt inv.core.heapNodup ok1
        have hE : now + ttl.toNat ≠ 0 := by omega
        refine ⟨?_, mf.2.2.2, inv.capPos⟩
        refine
          { keysNodup := inv.core.keysNodup
            llPerm := mf.1
            llNodup := mf.2.1
            llBound := mf.2.2.1
            keyMatch := ?_
            heapBound := fun r' hr' =>
              inv.core.heapBound r' (spec.1.1.mem_iff.mp hr')
            heapNodup := spec.1.1.nodup_iff.mpr inv.core.heapNodup
            heapIndexOK := spec.1.2
            attached := ?_ }
        · intro p hp
          dsimp only
          by_cases hpe : p.2 = e
          · have hpk := binding_eq_of_snd inv.core hlk hp hpe
            rw [hpk]
            dsimp only
            rw [fupd_same]
            exact inv.core.keyMatch (k, e) hbind
          · rw [fupd_ne _ _ _ hpe]
            exact inv.core.keyMatch p hp
        · intro p hp r' hr'
          dsimp only at hp hr' ⊢
          by_cases hpe : p.2 = e
          · have hpk := binding_eq_of_snd inv.core hlk hp hpe
            rw [hpe, fupd_same] at hr'
            have hrr : r' = r := by
              have : (s.elems e).exp = some r' := hr'
              exact (Option.some.inj (hre.symm.trans this)).symm
            subst hrr
            have hsame := spec.2 r'
            rw [hpe, fupd_same]
            refine ⟨spec.1.1.mem_iff.mpr hrmem, ?_, ?_, ?_, hE⟩
            · rw [hsame.1, hpk]
              simpa using hfacts0.2.1
            · rw [hsame.2.2]
              simpa using hfacts0.2.2.1
            · rw [hsame.2.1]
              simp
          · rw [fupd_ne _ _ _ hpe] at hr' ⊢
            have hfacts := inv.core.attached p hp r' hr'
            have hpk := binding_key_ne_of_snd_ne inv.core hlk hp hpe
            have hrne : r' ≠ r := by
              intro hrr
              apply hpk
              rw [← hfacts.2.1, hrr, hfacts0.2.1]
            have hsame := spec.2 r'
            refine ⟨spec.1.1.mem_iff.mpr hfacts.1, ?_, ?_, ?_, hfacts.2.2.2.2⟩
            · rw [hsame.1]
              simpa [hrne] using hfacts.2.1
            · rw [hsame.2.2]
              simpa [hrne] using hfacts.2.2.1
            · rw [hsame.2.1]
              simpa [hrne] using hfacts.2.2.2.1
    · rcases hre : (s.elems e).exp with - | r
      · -- plain value update, no record involved
        rw [SetWithTTL_update_plain hlk ht hre]
        refine ⟨?_, mf.2.2.2, inv.capPos⟩
        refine
          { keysNodup := inv.core.keysNodup
            llPerm := mf.1
            llNodup := mf.2.1
            llBound := mf.2.2.1
            keyMatch := ?_
            heapBound := inv.core.heapBound
            heapNodup := inv.core.heapNodup
            heapIndexOK := inv.core.heapIndexOK
            attached := ?_ }
        · intro p hp
          dsimp only
          by_cases hpe : p.2 = e
          · have hpk := binding_eq_of_snd inv.core hlk hp hpe
            rw [hpk]
            dsimp only
            rw [fupd_same]
            exact inv.core.keyMatch (k, e) hbind
          · rw [fupd_ne _ _ _ hpe]
            exact inv.core.keyMatch p hp
        · intro p hp r' hr'
          dsimp only at hp hr' ⊢
          by_cases hpe : p.2 = e
          · rw [hpe, fupd_same] at hr'
            have : (s.elems e).exp = some r' := hr'
            rw [hre] at this
            exact absurd this (by simp)
          · rw [fupd_ne _ _ _ hpe] at hr' ⊢
            exact inv.core.attached p hp r' hr'
      · -- cancel the attached record (flag only)
        rw [SetWithTTL_update_cancel hlk ht hre]
        have hfacts0 := inv.core.attached (k, e) hbind r hre
        refine ⟨?_, mf.2.2.2, inv.capPos⟩
        refine
          { keysNodup := inv.core.keysNodup
            llPerm := mf.1
            llNodup := mf.2.1
            llBound := mf.2.2.1
            keyMatch := ?_
            heapBound := inv.core.heapBound
            heapNodup := inv.core.heapNodup
            heapIndexOK := IndexOK_congr
              (fun n => by by_cases hn : n = r <;> simp [hn])
              inv.core.heapIndexOK
            attached := ?_ }
        · intro p hp
          dsimp only
          by_cases hpe : p.2 = e
          · have hpk := binding_eq_of_snd inv.core hlk hp hpe
            rw [hpk]
            dsimp only
            rw [fupd_same]
            exact inv.core.keyMatch (k, e) hbind
          · rw [fupd_ne _ _ _ hpe, fupd_ne _ _ _ hpe]
            exact inv.core.keyMatch p hp
        · intro p hp r' hr'
          dsimp only at hp hr' ⊢
          by_cases hpe : p.2 = e
          · rw [hpe, fupd_same] at hr'
            exact absurd hr' (by simp)
          · rw [fupd_ne _ _ _ hpe, fupd_ne _ _ _ hpe] at hr' ⊢
            have hfacts := inv.core.attached p hp r' hr'
            have hpk := binding_key_ne_of_snd_ne inv.core hlk hp hpe
            have hrne : r' ≠ r := by
              intro hrr
              apply hpk
              rw [← hfacts.2.1, hrr, hfacts0.2.1]
            simp only [if_neg hrne]
            exact hfacts

/-! ## SetCapacity eviction loop -/

theorem evictLoop_spec :
    ∀ (fuel : Nat) (s : Cache K V), InvCore s → 0 < s.capacity →
      s.ll.length ≤ fuel →
      InvCore (evictLoop fuel s) ∧
      ((evictLoop fuel s).ll.length : Int) ≤ s.capacity ∧
      (evictLoop fuel s).ll = s.ll.take s.capacity.toNat ∧
      (evictLoop fuel s).capacity = s.capacity ∧
      (evictLoop fuel s).elems = s.elems ∧
      ∀ k' e', mapLookup k' (evictLoop fuel s).cache = some e' ↔
        (mapLookup k' s.cache = some e' ∧ e' ∈ s.ll.take s.capacity.toNat)
  | 0, s, inv, hcap, hfuel => by
    simp only [evictLoop]
    have hnil : s.ll = [] := List.eq_nil_of_length_eq_zero (by omega)
    refine ⟨inv, by rw [hnil]; simpa using le_of_lt hcap, by rw [hnil]; simp,
      trivial, trivial, ?_⟩
    intro k' e'
    constructor
    · intro h'
      exact absurd (lookup_snd_mem_ll inv h') (by rw [hnil]; simp)
    · rintro ⟨h', -⟩
      exact absurd (lookup_snd_mem_ll inv h') (by rw [hnil]; simp)
  | fuel + 1, s, inv, hcap, hfuel => by
    rw [evictLoop]
    split
    next hlt =>
      have hne : s.ll ≠ [] := by
        intro h
        rw [h] at hlt
        simp at hlt
        omega
      obtain ⟨core', hll, hcapEq, helems, -, hlook⟩ := removeOldest_spec inv hne
      have hlen' : (removeOldestLocked s).ll.length ≤ fuel := by
        rw [hll, List.length_dropLast]
        have : 0 < s.ll.length := List.length_pos.mpr hne
        omega
      have ih := evictLoop_spec fuel (removeOldestLocked s) core'
        (by rw [hcapEq]; exact hcap) hlen'
      have htake : (removeOldestLocked s).ll.take
          (removeOldestLocked s).capacity.toNat = s.ll.take s.capacity.toNat := by
        rw [hll, hcapEq, List.dropLast_eq_take, List.take_take]
        congr 1
        have h1 : s.capacity.toNat < s.ll.length := by omega
        omega
      refine ⟨ih.1, by rw [← hcapEq]; exact ih.2.1, ?_, ?_, ?_, ?_⟩
      · rw [ih.2.2.1, htake]
      · rw [ih.2.2.2.1, hcapEq]
      · rw [ih.2.2.2.2.1, helems]
      · intro k' e'
        rw [ih.2.2.2.2.2 k' e', hlook k' e', htake]
        constructor
        · rintro ⟨⟨h1, h2⟩, h3⟩
          exact ⟨h1, h3⟩
        · rintro ⟨h1, h3⟩
          refine ⟨⟨h1, ?_⟩, h3⟩
          rw [List.dropLast_eq_take]
          have hmn : s.capacity.toNat ≤ s.ll.length - 1 := by omega
          have h4 : e' ∈ (s.ll.take (s.ll.length - 1)).take s.capacity.toNat := by
            rw [List.take_take, Nat.min_eq_left hmn]
            exact h3
          exact (List.take_sublist _ _).mem h4
    next hge =>
      have htake : s.ll.take s.capacity.toNat = s.ll :=
        List.take_of_length_le (by omega)
      refine ⟨inv, by omega, by rw [htake], rfl, rfl, ?_⟩
      intro k' e'
      constructor
      · intro h'
        exact ⟨h', by rw [htake]; exact lookup_snd_mem_ll inv h'⟩
      · rintro ⟨h', -⟩
        exact h'

theorem SetCapacity_eq_error {s : Cache K V} {n : Int} (h : n ≤ 0) :
    SetCapacity n s = .error .invalidCapacity := by
  simp [SetCapacity, h]

theorem SetCapacity_eq_ok {s : Cache K V} {n : Int} (h : 0 < n) :
    SetCapacity n s = .ok (evictLoop s.ll.length { s with capacity := n }) := by
  simp [SetCapacity, not_le.mpr h]

theorem capacity_set_core {s : Cache K V} (inv : InvCore s) (n : Int) :
    InvCore { s with capacity := n } :=
  { keysNodup := inv.keysNodup
    llPerm := inv.llPerm
    llNodup := inv.llNodup
    llBound := inv.llBound
    keyMatch := inv.keyMatch
    heapBound := inv.heapBound
    heapNodup := inv.heapNodup
    heapIndexOK := inv.heapIndexOK
    attached := inv.attached }

theorem SetCapacity_inv {s s' : Cache K V} (inv : Inv s) {n : Int}
    (h : SetCapacity n s = .ok s') : Inv s' := by
  by_cases hn : n ≤ 0
  · rw [SetCapacity_eq_error hn] at h
    exact absurd h (by simp)
  · have hn' : 0 < n := by omega
    rw [SetCapacity_eq_ok hn'] at h
    have spec := evictLoop_spec s.ll.length { s with capacity := n }
      (capacity_set_core inv.core n) hn' (le_refl _)
    have hs' : s' = evictLoop s.ll.length { s with capacity := n } :=
      (Option.some.inj (by simpa using h)).symm
    rw [hs']
    exact ⟨spec.1, by rw [spec.2.2.2.1]; exact spec.2.1, by
      rw [spec.2.2.2.1]; exact hn'⟩

/-! ## Sweeper invariant preservation -/

theorem popRoot_inv {s : Cache K V} (inv : Inv s) (hne : s.expHeap ≠ [])
    (hroot : ∀ p ∈ s.cache, ∀ r, (s.elems p.2).exp = some r →
      r ≠ hGet s.expHeap 0) :
    Inv { s with recs := (heapPopGo s.recs s.expHeap).1,
                 expHeap := (heapPopGo s.recs s.expHeap).2.1 } := by
  obtain ⟨hpop, hperm, hok, hsame, hlen⟩ :=
    heapPopGo_spec hne inv.core.heapNodup inv.core.heapIndexOK
  have hndfull : ((heapPopGo s.recs s.expHeap).2.1 ++ [hGet s.expHeap 0]).Nodup :=
    hperm.nodup_iff.mpr inv.core.heapNodup
  refine ⟨?_, inv.sizeCap, inv.capPos⟩
  refine
    { keysNodup := inv.core.keysNodup
      llPerm := inv.core.llPerm
      llNodup := inv.core.llNodup
      llBound := inv.core.llBound
      keyMatch := inv.core.keyMatch
      heapBound := ?_
      heapNodup := ?_
      heapIndexOK := hok
      attached := ?_ }
  · intro r hr
    exact inv.core.heapBound r
      (hperm.mem_iff.mp (List.mem_append.mpr (Or.inl hr)))
  · exact ((List.sublist_append_left _ _).nodup) hndfull
  · intro p hp r hr
    dsimp only at hp hr ⊢
    have hfacts := inv.core.attached p hp r hr
    have hrne : r ≠ hGet s.expHeap 0 := hroot p hp r hr
    have hmem' : r ∈ (heapPopGo s.recs s.expHeap).2.1 := by
      have : r ∈ (heapPopGo s.recs s.expHeap).2.1 ++ [hGet s.expHeap 0] :=
        hperm.mem_iff.mpr hfacts.1
      rcases List.mem_append.mp this with h | h
      · exact h
      · exact absurd (by simpa using h) hrne
    have hs := hsame r
    refine ⟨hmem', ?_, ?_, ?_, hfacts.2.2.2.2⟩
    · rw [hs.1]
      exact hfacts.2.1
    · rw [hs.2.2]
      exact hfacts.2.2.1
    · rw [hs.2.1]
      exact hfacts.2.2.2.1

theorem sweepStepOnce_inv {s : Cache K V} (inv : Inv s) (now : Nat) :
    ∀ s', sweepStepOnce now s = some s' → Inv s' := by
  intro s' hstep
  rw [sweepStepOnce] at hstep
  by_cases hlen0 : s.expHeap.length = 0
  · rw [if_pos hlen0] at hstep
    exact absurd hstep (by simp)
  rw [if_neg hlen0] at hstep
  have hne : s.expHeap ≠ [] := fun h => hlen0 (by rw [h]; rfl)
  by_cases hc : (s.recs (hGet s.expHeap 0)).canceled = true
  · rw [if_pos hc] at hstep
    have hs' := Option.some.inj hstep
    rw [← hs']
    refine popRoot_inv inv hne ?_
    intro p hp r hr
    intro hrr
    have := (inv.core.attached p hp r hr).2.2.1
    rw [hrr] at this
    rw [this] at hc
    simp at hc
  · rw [if_neg hc] at hstep
    by_cases hd : now < (s.recs (hGet s.expHeap 0)).expiration
    · rw [if_pos hd] at hstep
      exact absurd hstep (by simp)
    · rw [if_neg hd] at hstep
      dsimp only at hstep
      rcases hm : mapLookup (s.recs (hGet s.expHeap 0)).key s.cache with - | ee
      · rw [hm] at hstep
        dsimp only at hstep
        have hs' := Option.some.inj hstep
        rw [← hs']
        refine popRoot_inv inv hne ?_
        intro p hp r hr hrr
        have hfacts := inv.core.attached p hp r hr
        have hkey : (s.recs (hGet s.expHeap 0)).key = p.1 := hrr ▸ hfacts.2.1
        have : mapLookup p.1 s.cache = some p.2 :=
          mapLookup_of_mem inv.core.keysNodup (by
            have : (p.1, p.2) = p := rfl
            rw [this]
            exact hp)
        rw [hkey] at hm
        rw [hm] at this
        exact absurd this (by simp)
      · rw [hm] at hstep
        dsimp only at hstep
        by_cases hdue : (s.elems ee).expiration ≠ 0 ∧ (s.elems ee).expiration ≤ now
        · rw [if_pos hdue] at hstep
          have hs' := Option.some.inj hstep
          rw [← hs']
          obtain ⟨hpop, hperm, hok, hsame, hlen⟩ :=
            heapPopGo_spec hne inv.core.heapNodup inv.core.heapIndexOK
          have hndfull : ((heapPopGo s.recs s.expHeap).2.1 ++
              [hGet s.expHeap 0]).Nodup :=
            hperm.nodup_iff.mpr inv.core.heapNodup
          have base := removeEntry_invCore inv.core hm
          refine ⟨?_, sizeCap_of_erase inv ee, inv.capPos⟩
          refine
            { keysNodup := base.keysNodup
              llPerm := base.llPerm
              llNodup := base.llNodup
              llBound := base.llBound
              keyMatch := base.keyMatch
              heapBound := ?_
              heapNodup := ((List.sublist_append_left _ _).nodup) hndfull
              heapIndexOK := hok
              attached := ?_ }
          · intro r hr
            exact inv.core.heapBound r
              (hperm.mem_iff.mp (List.mem_append.mpr (Or.inl hr)))
          · intro p hp r hr
            dsimp only at hp hr ⊢
            have hpc := (mem_mapErase.mp hp).1
            have hpk := (mem_mapErase.mp hp).2
            have hfacts := inv.core.attached p hpc r hr
            have hrne : r ≠ hGet s.expHeap 0 := by
              intro hrr
              apply hpk
              have h1 : (s.recs (hGet s.expHeap 0)).key = p.1 := hrr ▸ hfacts.2.1
              have h2 : (s.recs (hGet s.expHeap 0)).key =
                  (s.recs (hGet s.expHeap 0)).key := rfl
              rw [← h1]
            have hmem' : r ∈ (heapPopGo s.recs s.expHeap).2.1 := by
              have : r ∈ (heapPopGo s.recs s.expHeap).2.1 ++ [hGet s.expHeap 0] :=
                hperm.mem_iff.mpr hfacts.1
              rcases List.mem_append.mp this with h | h
              · exact h
              · exact absurd (by simpa using h) hrne
            have hs := hsame r
            refine ⟨hmem', ?_, ?_, ?_, hfacts.2.2.2.2⟩
            · rw [hs.1]
              exact hfacts.2.1
            · rw [hs.2.2]
              exact hfacts.2.2.1
            · rw [hs.2.1]
              exact hfacts.2.2.2.1
        · rw [if_neg hdue] at hstep
          have hs' := Option.some.inj hstep
          rw [← hs']
          refine popRoot_inv inv hne ?_
          intro p hp r hr hrr
          have hfacts := inv.core.attached p hp r hr
          have hkey : (s.recs (hGet s.expHeap 0)).key = p.1 := hrr ▸ hfacts.2.1
          have hlkp : mapLookup p.1 s.cache = some p.2 :=
            mapLookup_of_mem inv.core.keysNodup (by
              have : (p.1, p.2) = p := rfl
              rw [this]
              exact hp)
          rw [hkey] at hm
          have hee : p.2 = ee := Option.some.inj (hlkp.symm.trans hm)
          apply hdue
          constructor
          · rw [← hee]
            exact hfacts.2.2.2.2
          · rw [← hee]
            have hexp : (s.recs (hGet s.expHeap 0)).expiration =
                (s.elems p.2).expiration := hrr ▸ hfacts.2.2.2.1
            rw [← hexp]
            omega

theorem sweepLoop_inv (now : Nat) :
    ∀ (fuel : Nat) (s : Cache K V), Inv s → Inv (sweepLoop now fuel s)
  | 0, s, inv => by
    simp only [sweepLoop]
    exact inv
  | fuel + 1, s, inv => by
    rw [sweepLoop]
    rcases hstep : sweepStepOnce now s with - | s1
    · exact inv
    · exact sweepLoop_inv now fuel s1 (sweepStepOnce_inv inv now s1 hstep)

theorem sweep_inv {s : Cache K V} (inv : Inv s) (now : Nat) : Inv (sweep now s) :=
  sweepLoop_inv now s.expHeap.length s inv

theorem sweepPhase1_inv {s : Cache K V} (inv : Inv s) : Inv (sweepPhase1 s) := by
  rw [sweepPhase1]
  by_cases hlen0 : s.expHeap.length = 0
  · rw [if_pos hlen0]
    exact inv
  · rw [if_neg hlen0]
    by_cases hc : (s.recs (hGet s.expHeap 0)).canceled = true
    · rw [if_pos hc]
      refine popRoot_inv inv (fun h => hlen0 (by rw [h]; rfl)) ?_
      intro p hp r hr hrr
      have := (inv.core.attached p hp r hr).2.2.1
      rw [hrr] at this
      rw [this] at hc
      simp at hc
    · rw [if_neg hc]
      exact inv

/-! ## Every reachable state satisfies the invariant -/

theorem NewCache_inv {cap : Int} {s : Cache K V} (h : NewCache K V cap = .ok s) :
    Inv s := by
  rw [NewCache] at h
  by_cases hc : cap ≤ 0
  · rw [if_pos hc] at h
    exact absurd h (by simp)
  · rw [if_neg hc] at h
    have hs := Except.ok.inj h
    rw [← hs]
    refine ⟨?_, ?_, ?_⟩
    · exact
        { keysNodup := List.nodup_nil
          llPerm := List.Perm.refl []
          llNodup := List.nodup_nil
          llBound := by intro e he; simp at he
          keyMatch := by intro p hp; simp at hp
          heapBound := by intro r hr; simp at hr
          heapNodup := List.nodup_nil
          heapIndexOK := by intro i hi; simp at hi
          attached := by intro p hp; simp at hp }
    · dsimp only
      simp only [List.length_nil, Nat.cast_zero]
      omega
    · dsimp only
      omega

theorem Step_inv {s s' : Cache K V} (inv : Inv s) (hs : Step s s') : Inv s' := by
  cases hs with
  | get k now => exact Get_inv inv k now
  | setWithTTL k v ttl now => exact SetWithTTL_inv inv k v ttl now
  | del k => exact Delete_inv inv k
  | dump => exact Dump_inv inv
  | setCapacity s2 n h => exact SetCapacity_inv inv h
  | phase1 => exact sweepPhase1_inv inv
  | sweepRun now => exact sweep_inv inv now
  | consumeSignal => exact consumeSignal_inv inv

theorem Reachable_inv {s : Cache K V} (h : Reachable s) : Inv s := by
  induction h with
  | init cap s h => exact NewCache_inv h
  | step hr hs ih => exact Step_inv ih hs

/-! ## Reachability of the concrete traces -/

theorem reach_ex0 : Reachable ex0 := Reachable.init 2 ex0 rfl

theorem reach_exC3c : Reachable exC3c :=
  Reachable.step
    (Reachable.step
      (Reachable.step reach_ex0 (Step.setWithTTL ex0 1 10 0 0))
      (Step.setWithTTL _ 2 20 0 0))
    (Step.setWithTTL _ 3 30 0 0)

theorem reach_exC3d : Reachable exC3d :=
  Reachable.step (Reachable.step reach_exC3c (Step.get _ 1 0))
    (Step.setWithTTL _ 4 40 0 0)

theorem reach_exT1 : Reachable exT1 :=
  Reachable.step reach_ex0 (Step.setWithTTL ex0 1 10 5 0)

theorem reach_exT2 : Reachable exT2 :=
  Reachable.step reach_exT1 (Step.get _ 1 6)

theorem reach_exT3 : Reachable exT3 :=
  Reachable.step reach_exT2 (Step.setWithTTL _ 1 20 2 6)

/-! ## More facts about the eviction loop and the sweep -/

theorem evictLoop_no_evict {s2 : Cache K V}
    (h : ¬(s2.capacity < (s2.ll.length : Int))) :
    ∀ fuel, evictLoop fuel s2 = s2
  | 0 => by simp only [evictLoop]
  | fuel + 1 => by rw [evictLoop, if_neg h]

theorem sweepStepOnce_lookup {s s1 : Cache K V} {now : Nat}
    (hstep : sweepStepOnce now s = some s1) :
    s1.elems = s.elems ∧
    ∀ k, (mapLookup k s1.cache = mapLookup k s.cache) ∨
      (mapLookup k s1.cache = none ∧ ∃ e, mapLookup k s.cache = some e ∧
        (s.elems e).expiration ≠ 0 ∧ (s.elems e).expiration ≤ now) := by
  rw [sweepStepOnce] at hstep
  by_cases hlen0 : s.expHeap.length = 0
  · rw [if_pos hlen0] at hstep
    exact absurd hstep (by simp)
  rw [if_neg hlen0] at hstep
  by_cases hc : (s.recs (hGet s.expHeap 0)).canceled = true
  · rw [if_pos hc] at hstep
    have hs1 := Option.some.inj hstep
    rw [← hs1]
    exact ⟨rfl, fun k => Or.inl rfl⟩
  · rw [if_neg hc] at hstep
    by_cases hd : now < (s.recs (hGet s.expHeap 0)).expiration
    · rw [if_pos hd] at hstep
      exact absurd hstep (by simp)
    · rw [if_neg hd] at hstep
      dsimp only at hstep
      rcases hm : mapLookup (s.recs (hGet s.expHeap 0)).key s.cache with - | ee
      · rw [hm] at hstep
        dsimp only at hstep
        have hs1 := Option.some.inj hstep
        rw [← hs1]
        exact ⟨rfl, fun k => Or.inl rfl⟩
      · rw [hm] at hstep
        dsimp only at hstep
        by_cases hdue : (s.elems ee).expiration ≠ 0 ∧ (s.elems ee).expiration ≤ now
        · rw [if_pos hdue] at hstep
          have hs1 := Option.some.inj hstep
          rw [← hs1]
          refine ⟨rfl, fun k => ?_⟩
          by_cases hk : k = (s.recs (hGet s.expHeap 0)).key
          · refine Or.inr ⟨?_, ee, ?_, hdue.1, hdue.2⟩
            · show mapLookup k (mapErase (s.recs (hGet s.expHeap 0)).key s.cache)
                = none
              rw [hk]
              exact mapLookup_mapErase_self _ s.cache
            · rw [hk]
              exact hm
          · refine Or.inl ?_
            show mapLookup k (mapErase (s.recs (hGet s.expHeap 0)).key s.cache)
              = mapLookup k s.cache
            exact mapLookup_mapErase_ne hk s.cache
        · rw [if_neg hdue] at hstep
          have hs1 := Option.some.inj hstep
          rw [← hs1]
          exact ⟨rfl, fun k => Or.inl rfl⟩

theorem sweepLoop_remove_due (now : Nat) :
    ∀ (fuel : Nat) (s : Cache K V) (k : K) (e : Nat),
      mapLookup k s.cache = some e →
      mapLookup k (sweepLoop now fuel s).cache = none →
      (s.elems e).expiration ≠ 0 ∧ (s.elems e).expiration ≤ now
  | 0, s, k, e, hsome, hnone => by
    simp only [sweepLoop] at hnone
    rw [hsome] at hnone
    exact absurd hnone (by simp)
  | fuel + 1, s, k, e, hsome, hnone => by
    rw [sweepLoop] at hnone
    rcases hstep : sweepStepOnce now s with - | s1
    · rw [hstep] at hnone
      rw [hsome] at hnone
      exact absurd hnone (by simp)
    · rw [hstep] at hnone
      obtain ⟨helems, hchar⟩ := sweepStepOnce_lookup hstep
      rcases hchar k with hsame | ⟨-, e', hsome', hx, hle⟩
      · have := sweepLoop_remove_due now fuel s1 k e (by rw [hsame]; exact hsome)
          hnone
        rw [helems] at this
        exact this
      · have hee : e' = e := Option.some.inj (hsome'.symm.trans hsome)
        rw [hee] at hx hle
        exact ⟨hx, hle⟩

theorem sweep_remove_due {s : Cache K V} (now : Nat) {k : K} {e : Nat}
    (hsome : mapLookup k s.cache = some e)
    (hnone : mapLookup k (sweep now s).cache = none) :
    (s.elems e).expiration ≠ 0 ∧ (s.elems e).expiration ≤ now :=
  sweepLoop_remove_due now s.expHeap.length s k e hsome hnone

/-! ## Claims -/

/-- Claim C1: at every reachable state (hence after every completed mutation —
Set, SetWithTTL, Get, Delete, Dump, SetCapacity, and also sweeper actions),
the lookup map and the LRU list hold the same number of entries and the same
multiset of keys, and the number of live entries is at most the capacity. -/
theorem C1_capacity_and_sync {s : Cache K V} (h : Reachable s) :
    s.cache.length = s.ll.length ∧
    ((size s : Int) ≤ s.capacity) ∧
    (s.cache.map Prod.fst).Perm (s.ll.map (fun e => (s.elems e).key)) := by
  have inv := Reachable_inv h
  refine ⟨?_, inv.sizeCap, ?_⟩
  · have hlen := inv.core.llPerm.length_eq
    rw [List.length_map] at hlen
    exact hlen
  · have h1 : s.cache.map Prod.fst = s.cache.map (fun p => (s.elems p.2).key) := by
      apply List.map_congr_left
      intro p hp
      exact (inv.core.keyMatch p hp).symm
    have h2 : (s.cache.map Prod.snd).map (fun e => (s.elems e).key) =
        s.cache.map (fun p => (s.elems p.2).key) := by
      rw [List.map_map]
      rfl
    rw [h1, ← h2]
    exact inv.core.llPerm.map _

/-- Witness of C1 at a concrete reachable capacity-2 state. -/
theorem C1_witness :
    exC3d.cache.length = exC3d.ll.length ∧
    ((size exC3d : Int) ≤ exC3d.capacity) ∧
    (exC3d.cache.map Prod.fst).Perm
      (exC3d.ll.map (fun e => (exC3d.elems e).key)) :=
  C1_capacity_and_sync reach_exC3d

/-- Claim C2: `Get` returns not-found on an absent key; on a present key whose
expiration is set and strictly earlier than the observed time it removes the
entry from the lookup table and the ordering and returns not-found; otherwise
it moves the entry's slot to the front and returns the value with `true`. -/
theorem C2_get_behavior (s : Cache K V) (k : K) (now : Nat) :
    (mapLookup k s.cache = none → Get k now s = (default, false, s)) ∧
    (∀ e, mapLookup k s.cache = some e →
      (s.elems e).expiration ≠ 0 → (s.elems e).expiration < now →
      Get k now s = (default, false,
        { s with ll := s.ll.erase e, cache := mapErase k s.cache })) ∧
    (∀ e, mapLookup k s.cache = some e →
      ((s.elems e).expiration = 0 ∨ now ≤ (s.elems e).expiration) →
      Get k now s = ((s.elems e).value, true, { s with ll := e :: s.ll.erase e })) :=
  ⟨fun h => Get_eq_miss now h,
   fun e h h1 h2 => Get_eq_expired h ⟨h1, h2⟩,
   fun e h hx => Get_eq_live h (by
    rintro ⟨h1, h2⟩
    rcases hx with hx | hx
    · exact h1 hx
    · omega)⟩

/-- Witness of C2 on the empty cache: a miss returns the zero value. -/
theorem C2_witness : Get 5 3 ex0 = (default, false, ex0) :=
  (C2_get_behavior ex0 5 3).1 rfl

/-- Counterexample to C3: in the capacity-2 cache, after `Set a`, `Set b`,
`Set c`, key `a` (= 1) has already been evicted, so the claimed
`Get(a) = found` is false — `Get(a)` misses both right after the three
inserts and at the end of the scenario. -/
theorem C3_counterexample :
    (Get 1 0 exC3c).2.1 = false ∧ (Get 1 0 exC3d).2.1 = false := by
  constructor
  · decide
  · decide

/-- Claim C3 as amended: inserting `a, b, c` into a capacity-2 cache evicts
`a`; the subsequent `Get(a)` misses, and `Set(d)` then evicts `b`, so `c` and
`d` remain retrievable while `a` and `b` are not. -/
theorem C3_amended :
    (Get 1 0 exC3d).2.1 = false ∧ (Get 2 0 exC3d).2.1 = false ∧
    (Get 3 0 exC3d).2.1 = true ∧ (Get 4 0 exC3d).2.1 = true := by
  refine ⟨by decide, by decide, by decide, by decide⟩

/-- Counterexample to C4: after `SetWithTTL k _ 5` at time 0, a lazy-expiring
`Get k` at time 6 (which removes the entry but does not cancel its record),
and `SetWithTTL k _ 2` at time 6, the reachable state `exT3` holds two
non-canceled expiration records for the same key in the heap. -/
theorem C4_counterexample : Reachable exT3 ∧ ¬ atMostOnePerKey exT3 :=
  ⟨reach_exT3, fun h => by
    have h01 := h 0 (by decide) 1 (by decide) (by decide) (by decide) (by decide)
    exact absurd h01 (by decide)⟩

/-- Claim C4 as amended: at every reachable state, every live entry's attached
record is in the heap, non-canceled, keyed by the entry's key and carrying the
entry's (nonzero) expiration; distinct live entries never share a record; and
a sweep removes an entry only when that entry's own stored expiration is
nonzero and due — so canceled or stale records never evict a live, unexpired
entry. (The per-key at-most-one bound of the original claim fails because
`Get`'s lazy expiration leaves the removed entry's record non-canceled in the
heap.) -/
theorem C4_amended {s : Cache K V} (h : Reachable s) (now : Nat) :
    (∀ p ∈ s.cache, ∀ r, (s.elems p.2).exp = some r →
      r ∈ s.expHeap ∧ (s.recs r).key = p.1 ∧ (s.recs r).canceled = false ∧
      (s.recs r).expiration = (s.elems p.2).expiration ∧
      (s.elems p.2).expiration ≠ 0) ∧
    (∀ p ∈ s.cache, ∀ q ∈ s.cache, ∀ r, (s.elems p.2).exp = some r →
      (s.elems q.2).exp = some r → p = q) ∧
    (∀ k e, mapLookup k s.cache = some e →
      mapLookup k (sweep now s).cache = none →
      (s.elems e).expiration ≠ 0 ∧ (s.elems e).expiration ≤ now) := by
  have inv := Reachable_inv h
  refine ⟨inv.core.attached, ?_, ?_⟩
  · intro p hp q hq r hrp hrq
    have h1 := (inv.core.attached p hp r hrp).2.1
    have h2 := (inv.core.attached q hq r hrq).2.1
    exact eq_of_mem_keysNodup inv.core.keysNodup hp hq (h1 ▸ h2 ▸ rfl)
  · intro k e hsome hnone
    exact sweep_remove_due now hsome hnone

/-- Witness of C4 as amended, at the reachable state `exT1` and time 9. -/
theorem C4_amended_witness :
    (∀ p ∈ exT1.cache, ∀ r, (exT1.elems p.2).exp = some r →
      r ∈ exT1.expHeap ∧ (exT1.recs r).key = p.1 ∧
      (exT1.recs r).canceled = false ∧
      (exT1.recs r).expiration = (exT1.elems p.2).expiration ∧
      (exT1.elems p.2).expiration ≠ 0) ∧
    (∀ p ∈ exT1.cache, ∀ q ∈ exT1.cache, ∀ r, (exT1.elems p.2).exp = some r →
      (exT1.elems q.2).exp = some r → p = q) ∧
    (∀ k e, mapLookup k exT1.cache = some e →
      mapLookup k (sweep 9 exT1).cache = none →
      (exT1.elems e).expiration ≠ 0 ∧ (exT1.elems e).expiration ≤ 9) :=
  C4_amended reach_exT1 9

/-- Claim C5: `SetWithTTL` on an existing key updates the entry's value and
expiration in place (same slot, lookup table untouched) and moves its slot to
the front; with a positive ttl it reuses an attached record (updating its
expiration in place and re-establishing heap order by a permutation, without
allocating) or pushes a fresh record when none is attached; with a
non-positive ttl it cancels an attached record by flag only, detaching it
from the entry while leaving it physically in the unchanged heap slice. -/
theorem C5_update_in_place {s : Cache K V} (inv : Inv s) {k : K} (v : V)
    (ttl : Int) (now : Nat) {e : Nat} (hlk : mapLookup k s.cache = some e) :
    ((SetWithTTL k v ttl now s).cache = s.cache) ∧
    ((SetWithTTL k v ttl now s).ll = e :: s.ll.erase e) ∧
    (((SetWithTTL k v ttl now s).elems e).value = v) ∧
    (((SetWithTTL k v ttl now s).elems e).expiration =
      (if 0 < ttl then now + ttl.toNat else 0)) ∧
    (∀ r, (s.elems e).exp = some r → 0 < ttl →
      ((SetWithTTL k v ttl now s).elems e).exp = some r ∧
      (SetWithTTL k v ttl now s).nextRec = s.nextRec ∧
      ((SetWithTTL k v ttl now s).recs r).expiration = now + ttl.toNat ∧
      ((SetWithTTL k v ttl now s).expHeap).Perm s.expHeap) ∧
    ((s.elems e).exp = none → 0 < ttl →
      ((SetWithTTL k v ttl now s).elems e).exp = some s.nextRec ∧
      (SetWithTTL k v ttl now s).nextRec = s.nextRec + 1 ∧
      ((SetWithTTL k v ttl now s).recs s.nextRec).key = k ∧
      ((SetWithTTL k v ttl now s).recs s.nextRec).expiration = now + ttl.toNat ∧
      ((SetWithTTL k v ttl now s).recs s.nextRec).canceled = false ∧
      ((SetWithTTL k v ttl now s).expHeap).Perm (s.nextRec :: s.expHeap)) ∧
    (∀ r, (s.elems e).exp = some r → ttl ≤ 0 →
      ((SetWithTTL k v ttl now s).recs r).canceled = true ∧
      ((SetWithTTL k v ttl now s).elems e).exp = none ∧
      (SetWithTTL k v ttl now s).expHeap = s.expHeap ∧
      r ∈ (SetWithTTL k v ttl now s).expHeap) := by
  by_cases ht : 0 < ttl
  · rcases hre : (s.elems e).exp with - | r0
    · rw [SetWithTTL_update_push hlk ht hre]
      refine ⟨rfl, rfl, ?_, ?_, ?_, ?_, ?_⟩
      · dsimp only
        rw [fupd_same]
      · dsimp only
        rw [fupd_same, if_pos ht]
      · intro r hr
        exact absurd hr (by simp)
      · intro _ _
        have hrid : s.nextRec ∉ s.expHeap :=
          fun hm => lt_irrefl _ (inv.core.heapBound _ hm)
        have ok1 : IndexOK (fupd s.recs s.nextRec ⟨k, now + ttl.toNat, 0, false⟩)
            s.expHeap := by
          intro i hi
          have hg : hGet s.expHeap i ≠ s.nextRec := by
            intro heq
            exact hrid (heq ▸ hGet_mem hi)
          rw [fupd_ne _ _ _ hg]
          exact inv.core.heapIndexOK i hi
        have spec := heapPushGo_spec hrid inv.core.heapNodup ok1
        have hsame := spec.2 s.nextRec
        have hrecs1 : fupd s.recs s.nextRec ⟨k, now + ttl.toNat, 0, false⟩
            s.nextRec = ⟨k, now + ttl.toNat, 0, false⟩ := fupd_same _ _ _
        refine ⟨by dsimp only; rw [fupd_same], rfl, ?_, ?_, ?_, spec.1.1⟩
        · rw [show ((heapPushGo (fupd s.recs s.nextRec
            ⟨k, now + ttl.toNat, 0, false⟩) s.expHeap s.nextRec).1
              s.nextRec).key = k from by rw [hsame.1, hrecs1]]
        · rw [show ((heapPushGo (fupd s.recs s.nextRec
            ⟨k, now + ttl.toNat, 0, false⟩) s.expHeap s.nextRec).1
              s.nextRec).expiration = now + ttl.toNat from by
            rw [hsame.2.1, hrecs1]]
        · rw [show ((heapPushGo (fupd s.recs s.nextRec
            ⟨k, now + ttl.toNat, 0, false⟩) s.expHeap s.nextRec).1
              s.nextRec).canceled = false from by rw [hsame.2.2, hrecs1]]
      · intro r hr hle
        omega
    · rw [SetWithTTL_update_fix hlk ht hre]
      have hfacts0 := inv.core.attached (k, e) (mapLookup_mem hlk) r0 hre
      have ok1 : IndexOK
          (fun n => if n = r0 then { s.recs n with expiration := now + ttl.toNat }
            else s.recs n) s.expHeap :=
        IndexOK_congr (fun n => by by_cases hn : n = r0 <;> simp [hn])
          inv.core.heapIndexOK
      obtain ⟨pos, hposlt, hpose⟩ := mem_hGet_pos hfacts0.1
      have hidx : (s.recs r0).index = (pos : Int) := by
        rw [← hpose]
        exact inv.core.heapIndexOK pos hposlt
      have hilt : (s.recs r0).index.toNat < s.expHeap.length := by
        rw [hidx]
        simpa using hposlt
      have spec := heapFixGo_spec hilt inv.core.heapNodup ok1
      refine ⟨rfl, rfl, by dsimp only; rw [fupd_same], by
        dsimp only; rw [fupd_same, if_pos ht], ?_, ?_, ?_⟩
      · intro r hr ht2
        have hrr : r = r0 := (Option.some.inj hr).symm
        subst hrr
        refine ⟨by dsimp only; rw [fupd_same]; exact hre, rfl, ?_, spec.1.1⟩
        have hsame := spec.2 r
        rw [hsame.2.1]
        simp
      · intro hr
        exact absurd hr (by simp)
      · intro r hr hle
        omega
  · have hle : ttl ≤ 0 := by omega
    rcases hre : (s.elems e).exp with - | r0
    · rw [SetWithTTL_update_plain hlk ht hre]
      refine ⟨rfl, rfl, by dsimp only; rw [fupd_same], by
        dsimp only; rw [fupd_same, if_neg ht], ?_, ?_, ?_⟩
      · intro r hr ht2
        exact absurd ht2 ht
      · intro _ ht2
        exact absurd ht2 ht
      · intro r hr _
        exact absurd hr (by simp)
    · rw [SetWithTTL_update_cancel hlk ht hre]
      have hfacts0 := inv.core.attached (k, e) (mapLookup_mem hlk) r0 hre
      refine ⟨rfl, rfl, by dsimp only; rw [fupd_same], by
        dsimp only; rw [fupd_same, if_neg ht], ?_, ?_, ?_⟩
      · intro r hr ht2
        exact absurd ht2 ht
      · intro _ ht2
        exact absurd ht2 ht
      · intro r hr _
        have hrr : r = r0 := (Option.some.inj hr).symm
        subst hrr
        refine ⟨by simp, by dsimp only; rw [fupd_same], rfl, hfacts0.1⟩

/-- Witness of C5: re-setting key 1 of `exT1` with ttl 4 at time 2 keeps the
lookup table, moves the slot to the front, and reuses record 0. -/
theorem C5_witness :
    ((SetWithTTL 1 99 4 2 exT1).cache = exT1.cache) ∧
    ((SetWithTTL 1 99 4 2 exT1).ll = 0 :: exT1.ll.erase 0) ∧
    (((SetWithTTL 1 99 4 2 exT1).elems 0).value = 99) ∧
    (((SetWithTTL 1 99 4 2 exT1).elems 0).expiration =
      (if (0 : Int) < 4 then 2 + (4 : Int).toNat else 0)) ∧
    ((exT1.elems 0).exp = some 0 → (0 : Int) < 4 →
      ((SetWithTTL 1 99 4 2 exT1).elems 0).exp = some 0 ∧
      (SetWithTTL 1 99 4 2 exT1).nextRec = exT1.nextRec ∧
      ((SetWithTTL 1 99 4 2 exT1).recs 0).expiration = 2 + (4 : Int).toNat ∧
      ((SetWithTTL 1 99 4 2 exT1).expHeap).Perm exT1.expHeap) := by
  have h := C5_update_in_place (Reachable_inv reach_exT1) (k := 1) 99 4 2
    (e := 0) rfl
  exact ⟨h.1, h.2.1, h.2.2.1, h.2.2.2.1, fun h1 h2 => h.2.2.2.2.1 0 h1 h2⟩

/-- Counterexample to C6: in the reachable state `exT3`, the heap root is the
stale record 0 with expiration 5, while key 1's live entry stores expiration
8; the claim says a popped record whose expiration does not match leaves the
entry untouched, yet the sweep iteration at time 9 removes the entry (its own
expiration 8 is due) — the code checks dueness, not a match. -/
theorem C6_counterexample :
    Reachable exT3 ∧
    hGet exT3.expHeap 0 = 0 ∧
    (exT3.recs 0).canceled = false ∧
    (exT3.recs 0).expiration = 5 ∧
    (exT3.recs 0).key = 1 ∧
    mapLookup 1 exT3.cache = some 1 ∧
    (exT3.elems 1).expiration = 8 ∧
    (sweepStepOnce 9 exT3).map (fun s1 => mapLookup 1 s1.cache) = some none :=
  ⟨reach_exT3, by decide, by decide, by decide, by decide, by decide, by decide,
    by decide⟩

/-- Claim C6 as amended: during a sweep iteration, a canceled root record is
popped and discarded without touching any entry, and a due non-canceled popped
record removes the entry stored under its key exactly when that entry's own
stored expiration is nonzero and at most `now` (regardless of whether it
matches the popped record's expiration); in particular entries whose
expiration was superseded to a future time or cleared are left untouched. -/
theorem C6_sweep_iteration (s : Cache K V) (now : Nat) :
    (s.expHeap ≠ [] → (s.recs (hGet s.expHeap 0)).canceled = true →
      ∃ s1, sweepStepOnce now s = some s1 ∧ s1.cache = s.cache ∧ s1.ll = s.ll ∧
        s1.elems = s.elems) ∧
    (s.expHeap ≠ [] → (s.recs (hGet s.expHeap 0)).canceled = false →
      (s.recs (hGet s.expHeap 0)).expiration ≤ now →
      ∀ e, mapLookup (s.recs (hGet s.expHeap 0)).key s.cache = some e →
      ∃ s1, sweepStepOnce now s = some s1 ∧
        (((s.elems e).expiration ≠ 0 ∧ (s.elems e).expiration ≤ now) →
          s1.cache = mapErase (s.recs (hGet s.expHeap 0)).key s.cache ∧
          s1.ll = s.ll.erase e) ∧
        (¬((s.elems e).expiration ≠ 0 ∧ (s.elems e).expiration ≤ now) →
          s1.cache = s.cache ∧ s1.ll = s.ll)) := by
  constructor
  · intro hne hc
    rw [sweepStepOnce,
      if_neg (fun h => hne (List.eq_nil_of_length_eq_zero h)), if_pos hc]
    exact ⟨_, rfl, rfl, rfl, rfl⟩
  · intro hne hc hdue e hm
    have hlen0 : ¬s.expHeap.length = 0 :=
      fun h => hne (List.eq_nil_of_length_eq_zero h)
    rw [sweepStepOnce, if_neg hlen0, if_neg (by rw [hc]; simp),
      if_neg (not_lt.mpr hdue)]
    dsimp only
    rw [hm]
    dsimp only
    by_cases hdue2 : (s.elems e).expiration ≠ 0 ∧ (s.elems e).expiration ≤ now
    · rw [if_pos hdue2]
      exact ⟨_, rfl, fun _ => ⟨rfl, rfl⟩, fun hcontra => absurd hdue2 hcontra⟩
    · rw [if_neg hdue2]
      exact ⟨_, rfl, fun hcontra => absurd hcontra hdue2, fun _ => ⟨rfl, rfl⟩⟩

/-- Witness of C6 as amended at `exT3`, time 9: the due root record (for
key 1) removes the entry because the entry's own expiration 8 is due. -/
theorem C6_sweep_iteration_witness :
    ∃ s1, sweepStepOnce 9 exT3 = some s1 ∧
      (((exT3.elems 1).expiration ≠ 0 ∧ (exT3.elems 1).expiration ≤ 9) →
        s1.cache = mapErase (exT3.recs (hGet exT3.expHeap 0)).key exT3.cache ∧
        s1.ll = exT3.ll.erase 1) ∧
      (¬((exT3.elems 1).expiration ≠ 0 ∧ (exT3.elems 1).expiration ≤ 9) →
        s1.cache = exT3.cache ∧ s1.ll = exT3.ll) :=
  (C6_sweep_iteration exT3 9).2 (by decide) (by decide) (by decide) 1 (by decide)

/-- Claim C7: a successful `SetCapacity n` stores the capacity `n` and evicts
least-recently-used entries until the size fits: the surviving order is
exactly the `n` most recently used slots, a key stays retrievable exactly when
its slot is among them, and when `n` is at or above the current size nothing
at all changes except the stored capacity. -/
theorem C7_setCapacity_evicts {s s' : Cache K V} (inv : Inv s) {n : Int}
    (h : SetCapacity n s = .ok s') :
    s'.capacity = n ∧
    s'.ll = s.ll.take n.toNat ∧
    ((s'.ll.length : Int) ≤ n) ∧
    (∀ k e, mapLookup k s'.cache = some e ↔
      (mapLookup k s.cache = some e ∧ e ∈ s.ll.take n.toNat)) ∧
    ((s.ll.length : Int) ≤ n → s' = { s with capacity := n }) := by
  by_cases hn : n ≤ 0
  · rw [SetCapacity_eq_error hn] at h
    exact absurd h (by simp)
  · have hn' : 0 < n := by omega
    rw [SetCapacity_eq_ok hn'] at h
    have hs' : s' = evictLoop s.ll.length { s with capacity := n } :=
      (Except.ok.inj h).symm
    subst hs'
    have spec := evictLoop_spec s.ll.length { s with capacity := n }
      (capacity_set_core inv.core n) hn' (le_refl _)
    refine ⟨spec.2.2.2.1, spec.2.2.1, spec.2.1, spec.2.2.2.2.2, ?_⟩
    intro hlen
    have hguard : ¬(({ s with capacity := n } : Cache K V).capacity <
        ((({ s with capacity := n } : Cache K V).ll.length : Nat) : Int)) := by
      dsimp only
      omega
    exact evictLoop_no_evict hguard s.ll.length

/-- Witness of C7: shrinking the capacity-2 two-entry cache `exC3d` to
capacity 1 keeps exactly the most recently used slot. -/
theorem C7_witness :
    (evictLoop exC3d.ll.length { exC3d with capacity := 1 }).capacity = 1 ∧
    (evictLoop exC3d.ll.length { exC3d with capacity := 1 }).ll =
      exC3d.ll.take (1 : Int).toNat := by
  have h := C7_setCapacity_evicts (Reachable_inv reach_exC3d)
    (SetCapacity_eq_ok (s := exC3d) (n := 1) (by decide))
  exact ⟨h.1, h.2.1⟩

/-- Claim C8: `NewCache` and `SetCapacity` fail (the Go code panics, modelled
as `Except.error`) exactly when the given capacity is not positive; the check
happens before anything is built or written, so on failure no cache exists
(`NewCache` returns no state) and the existing cache is untouched (the error
is returned without producing a modified state); with a positive capacity
`NewCache` yields the empty cache. -/
theorem C8_config_validation (cap n : Int) (s : Cache K V) :
    (cap ≤ 0 ↔ NewCache K V cap = .error .invalidCapacity) ∧
    (0 < cap → ∃ s0 : Cache K V, NewCache K V cap = .ok s0 ∧ s0.capacity = cap ∧
      s0.ll = [] ∧ s0.cache = [] ∧ s0.expHeap = []) ∧
    (n ≤ 0 ↔ SetCapacity n s = .error .invalidCapacity) ∧
    (0 < n → ∃ s', SetCapacity n s = .ok s') := by
  refine ⟨⟨fun h => by simp [NewCache, h], fun h => ?_⟩, fun h => ?_,
    ⟨fun h => SetCapacity_eq_error h, fun h => ?_⟩, fun h => ?_⟩
  · by_cases hc : cap ≤ 0
    · exact hc
    · rw [NewCache, if_neg hc] at h
      exact absurd h (by simp)
  · rw [NewCache, if_neg (not_le.mpr h)]
    exact ⟨_, rfl, rfl, rfl, rfl, rfl⟩
  · by_cases hc : n ≤ 0
    · exact hc
    · rw [SetCapacity_eq_ok (by omega)] at h
      exact absurd h (by simp)
  · rw [SetCapacity_eq_ok h]
    exact ⟨_, rfl⟩

/-- Witness of C8 at concrete capacities. -/
theorem C8_witness :
    NewCache Nat Nat (-1) = .error .invalidCapacity ∧
    (∃ s', SetCapacity 3 ex0 = .ok s') := by
  exact ⟨(C8_config_validation (-1) 3 ex0).1.mp (by decide),
    (C8_config_validation (-1) 3 ex0).2.2.2 (by decide)⟩

/-- Claim C9: `Set`/`SetWithTTL` on an existing key never changes the size and
never evicts: the lookup table is left literally unchanged and the order list
is only permuted (the slot moves to the front), so the set of live keys is
exactly what it was. -/
theorem C9_update_no_evict {s : Cache K V} (inv : Inv s) {k : K} {e : Nat}
    (hlk : mapLookup k s.cache = some e) (v : V) (ttl : Int) (now : Nat) :
    size (SetWithTTL k v ttl now s) = size s ∧
    (SetWithTTL k v ttl now s).cache = s.cache ∧
    ((SetWithTTL k v ttl now s).ll).Perm s.ll := by
  have he : e ∈ s.ll := lookup_snd_mem_ll inv.core hlk
  have hlen : (e :: s.ll.erase e).length = s.ll.length := by
    rw [List.length_cons, List.length_erase_of_mem he]
    have : 0 < s.ll.length := List.length_pos.mpr (List.ne_nil_of_mem he)
    omega
  have hperm : (e :: s.ll.erase e).Perm s.ll := (List.perm_cons_erase he).symm
  by_cases ht : 0 < ttl
  · rcases hre : (s.elems e).exp with - | r0
    · rw [SetWithTTL_update_push hlk ht hre]
      exact ⟨hlen, rfl, hperm⟩
    · rw [SetWithTTL_update_fix hlk ht hre]
      exact ⟨hlen, rfl, hperm⟩
  · rcases hre : (s.elems e).exp with - | r0
    · rw [SetWithTTL_update_plain hlk ht hre]
      exact ⟨hlen, rfl, hperm⟩
    · rw [SetWithTTL_update_cancel hlk ht hre]
      exact ⟨hlen, rfl, hperm⟩

/-- Witness of C9: updating key 1 of `exT1`. -/
theorem C9_witness :
    size (SetWithTTL 1 7 0 3 exT1) = size exT1 ∧
    (SetWithTTL 1 7 0 3 exT1).cache = exT1.cache ∧
    ((SetWithTTL 1 7 0 3 exT1).ll).Perm exT1.ll :=
  C9_update_no_evict (Reachable_inv reach_exT1) (k := 1) (e := 0) rfl 7 0 3

/-- Claim C10: whenever `Get` reports not-found — the key is absent or was
just removed by lazy expiration — the returned value is the zero value of the
value type. -/
theorem C10_zero_value_on_miss (s : Cache K V) (k : K) (now : Nat)
    (h : (Get k now s).2.1 = false) : (Get k now s).1 = default := by
  rcases hlk : mapLookup k s.cache with - | e
  · rw [Get_eq_miss now hlk]
  · by_cases hx : (s.elems e).expiration ≠ 0 ∧ (s.elems e).expiration < now
    · rw [Get_eq_expired hlk hx]
    · rw [Get_eq_live hlk hx] at h
      exact absurd h (by simp)

/-- Witness of C10: at time 9 the entry of `exT1` is expired, so `Get`
reports not-found and returns the zero value. -/
theorem C10_witness :
    (Get 1 9 exT1).2.1 = false ∧ (Get 1 9 exT1).1 = default :=
  ⟨by decide, C10_zero_value_on_miss exT1 1 9 (by decide)⟩

end Goutte
